import Mathlib

/-!
# Verification of `netlimit` (rate-limited `net.Conn` wrapper)

Shallow embedding of `conn.go`, `limiter.go` and `http/transport.go`.

Modelling conventions.

* The world outside the wrapper (the wrapped connection, the limiters, the base dial step)
  is a deterministic state machine over an arbitrary state type `σ`; every call takes the
  current state and returns the next one together with its results. Go `error` values are
  an arbitrary type `ε`, with `none` for the nil error.
* A byte buffer is a `List Byte`. Go's `int64` / `int` values are mathematical integers:
  buffer lengths are far below `2 ^ 62` on every supported target, so `i + limit` never
  wraps. The running total `n` is the integer sum of the counts returned; the Go `int`
  holding it is that sum as long as it does not wrap, which is the case when every count
  lies between 0 and the length of its slice: the total is then between 0 and `len(b)`
  (`throttled_total_bounded`). The theorems that state the value of the returned total for
  arbitrary runs (claims C5, C6, C7) assume this contract of the wrapped connection.
* `Limiter.Limit` stands for the value `int64(l.Limit())` that the code computes from
  the limiter's floating point rate; the conversion itself is not modelled.
* The Go loops need not terminate, so they take a fuel argument counting loop iterations.
  A run records its outcome (returned values, run-time panic, or fuel exhausted), the final
  contents of the caller's buffer, the calls made on the collaborators, and the final state.
-/

namespace Netlimit

/-- One byte of a buffer. -/
abbrev Byte := Fin 256

/-- Direction of a transfer: selects the limiter and the connection method. -/
inductive Dir where
  | read
  | write
  deriving DecidableEq, Repr

/-- Result of `net.Conn.Read(p)`: `data` holds the bytes the call stored from the start of
the slice it was given (positions past `data.length` keep their contents). -/
structure ReadResult (σ ε : Type) where
  data : List Byte
  n : Int
  err : Option ε
  state : σ

/-- Result of `net.Conn.Write(p)`; a writer leaves the bytes of `p` as they are. -/
structure WriteResult (σ ε : Type) where
  n : Int
  err : Option ε
  state : σ

/-- The part of the `net.Conn` interface that `Conn` overrides. -/
structure NetConn (σ ε : Type) where
  Read : σ → List Byte → ReadResult σ ε
  Write : σ → List Byte → WriteResult σ ε

/-- The `Limiter` interface of `limiter.go`. `Limit` returns the quota as the integer
`int64(Limit())`; `WaitN` returns its error. -/
structure Limiter (σ ε : Type) where
  Limit : σ → Int × σ
  WaitN : σ → Int → Option ε × σ

/-- The struct `Conn` of `conn.go`: the embedded `net.Conn` field (here `netConn`, an
interface value, possibly nil) and the two limiters (interface values, possibly nil). -/
structure Conn (σ ε : Type) where
  netConn : Option (NetConn σ ε)
  ReadLimiter : Option (Limiter σ ε)
  WriteLimiter : Option (Limiter σ ε)

/-- A call made on a collaborator.
* `xfer d lo hi p n err`: `Read` (`d = read`) or `Write` (`d = write`) of the wrapped
  connection on the slice `[lo:hi]` of the caller's buffer, whose contents at the call were
  `p`, returning `(n, err)`;
* `limit d q`: quota query on the limiter of direction `d`, answering `q`;
* `waitN d n err`: `WaitN(ctx, n)` on the limiter of direction `d`, returning `err`;
* `dial network addr err`: the base dial step, returning error `err`. -/
inductive Event (ε : Type) where
  | xfer (d : Dir) (lo hi : Int) (p : List Byte) (n : Int) (err : Option ε)
  | limit (d : Dir) (q : Int)
  | waitN (d : Dir) (n : Int) (err : Option ε)
  | dial (network addr : String) (err : Option ε)
  deriving DecidableEq, Repr

/-- Run-time panics the code can raise. -/
inductive Panic where
  | sliceBounds
  | nilDeref
  deriving DecidableEq, Repr

/-- How a call ended: it returned `(n, err)`, it panicked, or the fuel ran out while the
loop was still running. -/
inductive Outcome (ε : Type) where
  | returned (n : Int) (err : Option ε)
  | panicked (p : Panic)
  | running
  deriving DecidableEq, Repr

/-- A run of `Conn.Read` or `Conn.Write`. -/
structure Run (σ ε : Type) where
  outcome : Outcome ε
  buf : List Byte
  trace : List (Event ε)
  state : σ

/-- Put the calls `evs` in front of the calls of `r`. -/
def Run.after {σ ε : Type} (evs : List (Event ε)) (r : Run σ ε) : Run σ ε :=
  { r with trace := evs ++ r.trace }

/-- The slice expression `b[lo:hi]` for in-range bounds. -/
def slice (b : List Byte) (lo hi : Int) : List Byte :=
  (b.drop lo.toNat).take (hi - lo).toNat

/-- Contents of a slice `old` after a call stored `data` from its start. -/
def blit (data old : List Byte) : List Byte :=
  data.take old.length ++ old.drop data.length

/-- The buffer `b` after a call stored `data` from the start of `b[lo:hi]`. -/
def store (b : List Byte) (lo hi : Int) (data : List Byte) : List Byte :=
  b.take lo.toNat ++ blit data (slice b lo hi) ++ b.drop hi.toNat

/-- The `for` loop of `Conn.Read` (conn.go lines 28-45), entered with loop variable `i`,
running total `n`, buffer `b` and world state `s`. The slice expression `b[i:end]` panics
unless `0 ≤ i ≤ end ≤ cap(b)`; `end ≤ len(b) ≤ cap(b)` always holds after the clamp. The
total `n + r.n` is the integer sum; see the conventions above for the range in which the Go
`int` agrees with it. -/
def readLoop {σ ε : Type} (lc : Conn σ ε) (rl : Limiter σ ε) (nb limit : Int) :
    Nat → Int → Int → List Byte → σ → Run σ ε
  | 0, i, n, b, s =>
    if i < nb then ⟨.running, b, [], s⟩ else ⟨.returned n none, b, [], s⟩
  | fuel + 1, i, n, b, s =>
    if i < nb then
      let e := if i + limit > nb then nb else i + limit
      if 0 ≤ i ∧ i ≤ e then
        match lc.netConn with
        | none => ⟨.panicked .nilDeref, b, [], s⟩
        | some c =>
          let r := c.Read s (slice b i e)
          let b1 := store b i e r.data
          let n1 := n + r.n
          let ev := Event.xfer .read i e (slice b i e) r.n r.err
          match r.err with
          | some err => ⟨.returned n1 (some err), b1, [ev], r.state⟩
          | none =>
            let w := rl.WaitN r.state r.n
            match w.1 with
            | some err => ⟨.returned n1 (some err), b1, [ev, .waitN .read r.n (some err)], w.2⟩
            | none =>
              (readLoop lc rl nb limit fuel (i + limit) n1 b1 w.2).after
                [ev, .waitN .read r.n none]
      else ⟨.panicked .sliceBounds, b, [], s⟩
    else ⟨.returned n none, b, [], s⟩

/-- `Conn.Read` of conn.go. -/
def Conn.Read {σ ε : Type} (lc : Conn σ ε) (fuel : Nat) (b : List Byte) (s : σ) : Run σ ε :=
  match lc.ReadLimiter with
  | none =>
    match lc.netConn with
    | none => ⟨.panicked .nilDeref, b, [], s⟩
    | some c =>
      let r := c.Read s b
      ⟨.returned r.n r.err, blit r.data b, [.xfer .read 0 b.length b r.n r.err], r.state⟩
  | some rl =>
    let q := rl.Limit s
    let nb : Int := b.length
    let limit := if nb < q.1 then nb else q.1
    (readLoop lc rl nb limit fuel 0 0 b q.2).after [.limit .read q.1]

/-- The `for` loop of `Conn.Write` (conn.go lines 60-77); the total `n + r.n` is the integer
sum, as in `readLoop`. -/
def writeLoop {σ ε : Type} (lc : Conn σ ε) (wl : Limiter σ ε) (p : List Byte)
    (np limit : Int) : Nat → Int → Int → σ → Run σ ε
  | 0, i, n, s =>
    if i < np then ⟨.running, p, [], s⟩ else ⟨.returned n none, p, [], s⟩
  | fuel + 1, i, n, s =>
    if i < np then
      let e := if i + limit > np then np else i + limit
      if 0 ≤ i ∧ i ≤ e then
        match lc.netConn with
        | none => ⟨.panicked .nilDeref, p, [], s⟩
        | some c =>
          let r := c.Write s (slice p i e)
          let n1 := n + r.n
          let ev := Event.xfer .write i e (slice p i e) r.n r.err
          match r.err with
          | some err => ⟨.returned n1 (some err), p, [ev], r.state⟩
          | none =>
            let w := wl.WaitN r.state r.n
            match w.1 with
            | some err => ⟨.returned n1 (some err), p, [ev, .waitN .write r.n (some err)], w.2⟩
            | none =>
              (writeLoop lc wl p np limit fuel (i + limit) n1 w.2).after
                [ev, .waitN .write r.n none]
      else ⟨.panicked .sliceBounds, p, [], s⟩
    else ⟨.returned n none, p, [], s⟩

/-- `Conn.Write` of conn.go. -/
def Conn.Write {σ ε : Type} (lc : Conn σ ε) (fuel : Nat) (p : List Byte) (s : σ) : Run σ ε :=
  match lc.WriteLimiter with
  | none =>
    match lc.netConn with
    | none => ⟨.panicked .nilDeref, p, [], s⟩
    | some c =>
      let r := c.Write s p
      ⟨.returned r.n r.err, p, [.xfer .write 0 p.length p r.n r.err], r.state⟩
  | some wl =>
    let q := wl.Limit s
    let np : Int := p.length
    let limit := if np < q.1 then np else q.1
    (writeLoop lc wl p np limit fuel 0 0 q.2).after [.limit .write q.1]

/-! ### Observations on a run -/

/-- Byte counts returned by the calls on the wrapped connection, in call order. -/
def xferCounts {ε : Type} : List (Event ε) → List Int
  | [] => []
  | .xfer _ _ _ _ n _ :: tr => n :: xferCounts tr
  | _ :: tr => xferCounts tr

/-- Byte counts returned by the calls on the wrapped connection that returned no error. -/
def okCounts {ε : Type} : List (Event ε) → List Int
  | [] => []
  | .xfer _ _ _ _ n none :: tr => n :: okCounts tr
  | _ :: tr => okCounts tr

/-- Amounts passed to `WaitN`, in call order. -/
def charges {ε : Type} : List (Event ε) → List Int
  | [] => []
  | .waitN _ n _ :: tr => n :: charges tr
  | _ :: tr => charges tr

/-- Contents of the slices handed to the wrapped connection, in call order. -/
def xferData {ε : Type} : List (Event ε) → List (List Byte)
  | [] => []
  | .xfer _ _ _ p _ _ :: tr => p :: xferData tr
  | _ :: tr => xferData tr

/-- The direction of a call on the wrapped connection or on a limiter. -/
def Event.dir {ε : Type} : Event ε → Option Dir
  | .xfer d _ _ _ _ _ => some d
  | .limit d _ => some d
  | .waitN d _ _ => some d
  | .dial _ _ _ => none

/-- Quota queries made, in call order. -/
def quotaQueries {ε : Type} : List (Event ε) → List Int
  | [] => []
  | .limit _ q :: tr => q :: quotaQueries tr
  | _ :: tr => quotaQueries tr

/-- Result of one transfer on a slice of the buffer, as seen by the loop: the buffer after
the call, the count, the error and the next state. -/
structure Xfer (σ ε : Type) where
  buf : List Byte
  n : Int
  err : Option ε
  state : σ

/-- The transfer `Conn.Read` performs on `b[lo:hi]`. -/
def readXfer {σ ε : Type} (c : NetConn σ ε) (s : σ) (b : List Byte) (lo hi : Int) :
    Xfer σ ε :=
  let r := c.Read s (slice b lo hi)
  ⟨store b lo hi r.data, r.n, r.err, r.state⟩

/-- The transfer `Conn.Write` performs on `p[lo:hi]`. -/
def writeXfer {σ ε : Type} (c : NetConn σ ε) (s : σ) (p : List Byte) (lo hi : Int) :
    Xfer σ ε :=
  let r := c.Write s (slice p lo hi)
  ⟨p, r.n, r.err, r.state⟩

/-- The common shape of `readLoop` and `writeLoop` over a non-nil wrapped connection,
with the transfer `xf` and the charge `wait` as parameters. It is a proof device: the two
loops are shown equal to instances of it, and the facts about the loops are proved once. -/
def chunkLoop {σ ε : Type} (d : Dir) (xf : σ → List Byte → Int → Int → Xfer σ ε)
    (wait : σ → Int → Option ε × σ) (nb limit : Int) :
    Nat → Int → Int → List Byte → σ → Run σ ε
  | 0, i, n, b, s =>
    if i < nb then ⟨.running, b, [], s⟩ else ⟨.returned n none, b, [], s⟩
  | fuel + 1, i, n, b, s =>
    if i < nb then
      let e := if i + limit > nb then nb else i + limit
      if 0 ≤ i ∧ i ≤ e then
        let r := xf s b i e
        let ev := Event.xfer d i e (slice b i e) r.n r.err
        match r.err with
        | some err => ⟨.returned (n + r.n) (some err), r.buf, [ev], r.state⟩
        | none =>
          let w := wait r.state r.n
          match w.1 with
          | some err =>
            ⟨.returned (n + r.n) (some err), r.buf, [ev, .waitN d r.n (some err)], w.2⟩
          | none =>
            (chunkLoop d xf wait nb limit fuel (i + limit) (n + r.n) r.buf w.2).after
              [ev, .waitN d r.n none]
      else ⟨.panicked .sliceBounds, b, [], s⟩
    else ⟨.returned n none, b, [], s⟩

/-- The value of `end` computed by an iteration entered with loop variable `i`. -/
def chunkEnd (nb limit i : Int) : Int :=
  if i + limit > nb then nb else i + limit

/-! ### `http/transport.go` -/

/-- What a base dial step returns: the connection (an interface value, possibly nil), the
error and the next state. -/
structure DialResult (σ ε : Type) where
  conn : Option (NetConn σ ε)
  err : Option ε
  state : σ

/-- A base dial step `func(ctx, network, addr) (net.Conn, error)`. -/
abbrev Dial (χ σ ε : Type) := χ → String → String → σ → DialResult σ ε

/-- How the dial step installed by `NewTransport` ended. -/
inductive DialOutcome (σ ε : Type) where
  | returned (conn : Option (Conn σ ε)) (err : Option ε)
  | panicked (p : Panic)

/-- A run of the dial step installed by `NewTransport`. -/
structure DialRun (σ ε : Type) where
  outcome : DialOutcome σ ε
  trace : List (Event ε)
  state : σ

/-- The dial step installed by `NewTransport`. -/
abbrev LimitedDial (χ σ ε : Type) := χ → String → String → σ → DialRun σ ε

/-- The struct `http.Transport`: its `DialContext` hook (possibly nil), of type `δ`, and
all its other fields, of type `ρ`. -/
structure Transport (δ ρ : Type) where
  DialContext : Option δ
  rest : ρ

/-- `(*http.Transport).Clone`: a copy of every field. -/
def Transport.Clone {δ ρ : Type} (t : Transport δ ρ) : Transport δ ρ :=
  { DialContext := t.DialContext, rest := t.rest }

/-- `NewTransport` of http/transport.go. `DefaultTransport` is the value of the global
`http.DefaultTransport`; a nil `t` is `none`. The new hook reads `t.DialContext` when it is
called, and calling a nil function value panics. -/
def NewTransport {χ σ ε ρ : Type} (DefaultTransport : Transport (Dial χ σ ε) ρ)
    (t : Option (Transport (Dial χ σ ε) ρ))
    (readLimiter writeLimiter : Option (Limiter σ ε)) :
    Transport (LimitedDial χ σ ε) ρ :=
  let t := match t with
    | none => DefaultTransport
    | some t => t
  let t2 := t.Clone
  { rest := t2.rest
    DialContext := some (fun ctx network addr s =>
      match t.DialContext with
      | none => ⟨.panicked .nilDeref, [], s⟩
      | some dial =>
        let r := dial ctx network addr s
        match r.err with
        | some err => ⟨.returned none (some err), [.dial network addr (some err)], r.state⟩
        | none =>
          let lc : Conn σ ε :=
            { netConn := r.conn, ReadLimiter := readLimiter, WriteLimiter := writeLimiter }
          ⟨.returned (some lc) none, [.dial network addr none], r.state⟩) }

/-- Calling the `DialContext` hook of a transport built by `NewTransport`. -/
def Transport.dial {χ σ ε ρ : Type} (t : Transport (LimitedDial χ σ ε) ρ)
    (ctx : χ) (network addr : String) (s : σ) : DialRun σ ε :=
  match t.DialContext with
  | none => ⟨.panicked .nilDeref, [], s⟩
  | some f => f ctx network addr s

/-! ### Concrete collaborators, after the stubs of the test files

The state of these worlds is a natural number: the position `pos` in the test content,
whose byte number `k` is `byte(k)`. -/

/-- The test content from position `pos`: `len` bytes `byte(pos), byte(pos+1), ...`. -/
def content (pos len : Nat) : List Byte :=
  (List.range len).map (fun k => Fin.ofNat (pos + k))

/-- The connection stub of conn_test.go with no error: every call transfers the whole
slice and advances the position. -/
def stubConn (ε : Type) : NetConn Nat ε where
  Read := fun pos p => ⟨content pos p.length, p.length, none, pos + p.length⟩
  Write := fun pos p => ⟨p.length, none, pos + p.length⟩

/-- The connection stub of conn_test.go with `connErr` set: every call returns
`(0, connErr)`. -/
def failConn {ε : Type} (connErr : ε) : NetConn Nat ε where
  Read := fun pos _ => ⟨[], 0, some connErr, pos⟩
  Write := fun pos _ => ⟨0, some connErr, pos⟩

/-- A connection whose calls transfer `k` bytes and return them together with the error
`connErr` (partial success with an error). -/
def partialConn {ε : Type} (k : Nat) (connErr : ε) : NetConn Nat ε where
  Read := fun pos _ => ⟨content pos k, k, some connErr, pos + k⟩
  Write := fun pos _ => ⟨k, some connErr, pos + k⟩

/-- A connection obeying the stream contract that delivers one byte on its first call
(`pos = 0`) and fills the whole slice afterwards; writes likewise. -/
def shortConn (ε : Type) : NetConn Nat ε where
  Read := fun pos p =>
    let k := if pos = 0 then min 1 p.length else p.length
    ⟨content pos k, k, none, pos + k⟩
  Write := fun pos p =>
    let k := if pos = 0 then min 1 p.length else p.length
    ⟨k, none, pos + k⟩

/-- The limiter stub of conn_test.go with no error: quota `limit`, every charge succeeds. -/
def stubLimiter (ε : Type) (limit : Int) : Limiter Nat ε where
  Limit := fun s => (limit, s)
  WaitN := fun s _ => (none, s)

/-- The limiter stub of conn_test.go with `limiterErr` set: every charge fails. -/
def failLimiter {ε : Type} (limit : Int) (limiterErr : ε) : Limiter Nat ε where
  Limit := fun s => (limit, s)
  WaitN := fun s _ => (some limiterErr, s)

/-- The dial stub of TestNewTransportDialFail: every dial fails with `dialErr`. -/
def failDial {ε : Type} (dialErr : ε) : Dial Unit Nat ε :=
  fun _ _ _ s => ⟨none, some dialErr, s⟩

/-- The dial stub of TestNewTransport: every dial succeeds with the connection `c`. -/
def stubDial {ε : Type} (c : NetConn Nat ε) : Dial Unit Nat ε :=
  fun _ _ _ s => ⟨some c, none, s⟩

/-- A limiter whose quota changes between calls: 3 while the position is 0, 2 afterwards;
every charge succeeds. -/
def varyingLimiter (ε : Type) : Limiter Nat ε where
  Limit := fun s => (if s = 0 then 3 else 2, s)
  WaitN := fun s _ => (none, s)

/-- A connection that can move `cap` bytes in all: a call moves as much of its slice as
still fits and returns the error `connErr` when that is less than the slice. -/
def cappedConn {ε : Type} (cap : Nat) (connErr : ε) : NetConn Nat ε where
  Read := fun pos p =>
    let k := min p.length (cap - pos)
    ⟨content pos k, k, if k < p.length then some connErr else none, pos + k⟩
  Write := fun pos p =>
    let k := min p.length (cap - pos)
    ⟨k, if k < p.length then some connErr else none, pos + k⟩

/-- A buffer of `n` zero bytes, as `make([]byte, n)`. -/
def zeros (n : Nat) : List Byte := List.replicate n 0

/-- The charge amounts the specification states for a successful transfer of `S` bytes
with quota `L`: `L` repeated `⌊S / L⌋` times, followed by `S mod L` when that is not zero. -/
def chunkSizes (S L : Nat) : List Int :=
  List.replicate (S / L) (L : Int) ++ (if S % L = 0 then [] else [((S % L : Nat) : Int)])

/-- A transfer that always moves the whole slice without error and keeps the length of the
buffer. -/
def WholeSlices {σ ε : Type} (xf : σ → List Byte → Int → Int → Xfer σ ε) : Prop :=
  ∀ s b lo hi, 0 ≤ lo → lo ≤ hi → hi ≤ (b.length : Int) →
    (xf s b lo hi).err = none ∧ (xf s b lo hi).n = hi - lo ∧
      (xf s b lo hi).buf.length = b.length

/-! ## Theorems -/

section
variable {σ ε : Type}

@[simp] theorem Run.after_trace (evs : List (Event ε)) (r : Run σ ε) :
    (r.after evs).trace = evs ++ r.trace := rfl

@[simp] theorem Run.after_outcome (evs : List (Event ε)) (r : Run σ ε) :
    (r.after evs).outcome = r.outcome := rfl

@[simp] theorem Run.after_buf (evs : List (Event ε)) (r : Run σ ε) :
    (r.after evs).buf = r.buf := rfl

@[simp] theorem Run.after_state (evs : List (Event ε)) (r : Run σ ε) :
    (r.after evs).state = r.state := rfl

end

/-! ### The two loops as instances of the common loop -/

theorem readLoop_eq_chunkLoop {σ ε : Type} (c : NetConn σ ε) (rl : Limiter σ ε)
    (wl0 : Option (Limiter σ ε)) (rl0 : Option (Limiter σ ε)) (nb limit : Int) (fuel : Nat) :
    ∀ (i n : Int) (b : List Byte) (s : σ),
      readLoop ⟨some c, rl0, wl0⟩ rl nb limit fuel i n b s
        = chunkLoop .read (readXfer c) rl.WaitN nb limit fuel i n b s := by
  induction fuel with
  | zero => intro i n b s; simp [readLoop, chunkLoop]
  | succ k ih =>
    intro i n b s
    simp only [readLoop, chunkLoop, readXfer, ih]

theorem writeLoop_eq_chunkLoop {σ ε : Type} (c : NetConn σ ε) (wl : Limiter σ ε)
    (wl0 : Option (Limiter σ ε)) (rl0 : Option (Limiter σ ε)) (p : List Byte)
    (np limit : Int) (fuel : Nat) :
    ∀ (i n : Int) (s : σ),
      writeLoop ⟨some c, rl0, wl0⟩ wl p np limit fuel i n s
        = chunkLoop .write (writeXfer c) wl.WaitN np limit fuel i n p s := by
  induction fuel with
  | zero => intro i n s; simp [writeLoop, chunkLoop]
  | succ k ih =>
    intro i n s
    simp only [writeLoop, chunkLoop, writeXfer, ih]

section
variable {σ ε : Type}

/-- Case analysis and induction along the iterations of the common loop. -/
theorem chunkLoop_cases (d : Dir) (xf : σ → List Byte → Int → Int → Xfer σ ε)
    (wait : σ → Int → Option ε × σ) (nb limit : Int)
    (motive : Nat → Int → Int → List Byte → σ → Run σ ε → Prop)
    (done : ∀ fuel i n b s, ¬ i < nb → motive fuel i n b s ⟨.returned n none, b, [], s⟩)
    (out : ∀ i n b s, i < nb → motive 0 i n b s ⟨.running, b, [], s⟩)
    (bounds : ∀ fuel i n b s, i < nb → ¬ (0 ≤ i ∧ i ≤ chunkEnd nb limit i) →
      motive (fuel + 1) i n b s ⟨.panicked .sliceBounds, b, [], s⟩)
    (xferErr : ∀ fuel i n b s err, i < nb → 0 ≤ i → i ≤ chunkEnd nb limit i →
      (xf s b i (chunkEnd nb limit i)).err = some err →
      motive (fuel + 1) i n b s
        ⟨.returned (n + (xf s b i (chunkEnd nb limit i)).n) (some err),
          (xf s b i (chunkEnd nb limit i)).buf,
          [.xfer d i (chunkEnd nb limit i) (slice b i (chunkEnd nb limit i))
            (xf s b i (chunkEnd nb limit i)).n (some err)],
          (xf s b i (chunkEnd nb limit i)).state⟩)
    (waitErr : ∀ fuel i n b s err, i < nb → 0 ≤ i → i ≤ chunkEnd nb limit i →
      (xf s b i (chunkEnd nb limit i)).err = none →
      (wait (xf s b i (chunkEnd nb limit i)).state (xf s b i (chunkEnd nb limit i)).n).1
        = some err →
      motive (fuel + 1) i n b s
        ⟨.returned (n + (xf s b i (chunkEnd nb limit i)).n) (some err),
          (xf s b i (chunkEnd nb limit i)).buf,
          [.xfer d i (chunkEnd nb limit i) (slice b i (chunkEnd nb limit i))
            (xf s b i (chunkEnd nb limit i)).n none,
           .waitN d (xf s b i (chunkEnd nb limit i)).n (some err)],
          (wait (xf s b i (chunkEnd nb limit i)).state
            (xf s b i (chunkEnd nb limit i)).n).2⟩)
    (step : ∀ fuel i n b s, i < nb → 0 ≤ i → i ≤ chunkEnd nb limit i →
      (xf s b i (chunkEnd nb limit i)).err = none →
      (wait (xf s b i (chunkEnd nb limit i)).state (xf s b i (chunkEnd nb limit i)).n).1
        = none →
      motive fuel (i + limit) (n + (xf s b i (chunkEnd nb limit i)).n)
        (xf s b i (chunkEnd nb limit i)).buf
        (wait (xf s b i (chunkEnd nb limit i)).state (xf s b i (chunkEnd nb limit i)).n).2
        (chunkLoop d xf wait nb limit fuel (i + limit)
          (n + (xf s b i (chunkEnd nb limit i)).n) (xf s b i (chunkEnd nb limit i)).buf
          (wait (xf s b i (chunkEnd nb limit i)).state
            (xf s b i (chunkEnd nb limit i)).n).2) →
      motive (fuel + 1) i n b s
        ((chunkLoop d xf wait nb limit fuel (i + limit)
          (n + (xf s b i (chunkEnd nb limit i)).n) (xf s b i (chunkEnd nb limit i)).buf
          (wait (xf s b i (chunkEnd nb limit i)).state
            (xf s b i (chunkEnd nb limit i)).n).2).after
          [.xfer d i (chunkEnd nb limit i) (slice b i (chunkEnd nb limit i))
            (xf s b i (chunkEnd nb limit i)).n none,
           .waitN d (xf s b i (chunkEnd nb limit i)).n none])) :
    ∀ fuel i n b s, motive fuel i n b s (chunkLoop d xf wait nb limit fuel i n b s) := by
  intro fuel
  induction fuel with
  | zero =>
    intro i n b s
    by_cases h : i < nb
    · simpa [chunkLoop, h] using out i n b s h
    · simpa [chunkLoop, h] using done 0 i n b s h
  | succ k ih =>
    intro i n b s
    by_cases h : i < nb
    · by_cases hb : 0 ≤ i ∧ i ≤ chunkEnd nb limit i
      · cases h1 : (xf s b i (chunkEnd nb limit i)).err with
        | some err =>
          have := xferErr k i n b s err h hb.1 hb.2 h1
          simp only [chunkLoop, if_pos h]
          unfold chunkEnd at hb h1 this
          simp only [if_pos hb, h1]
          exact this
        | none =>
          cases h2 : (wait (xf s b i (chunkEnd nb limit i)).state
              (xf s b i (chunkEnd nb limit i)).n).1 with
          | some err =>
            have := waitErr k i n b s err h hb.1 hb.2 h1 h2
            simp only [chunkLoop, if_pos h]
            unfold chunkEnd at hb h1 h2 this
            simp only [if_pos hb, h1, h2]
            exact this
          | none =>
            have := step k i n b s h hb.1 hb.2 h1 h2 (ih _ _ _ _)
            simp only [chunkLoop, if_pos h]
            unfold chunkEnd at hb h1 h2 this
            simp only [if_pos hb, h1, h2]
            exact this
      · have := bounds k i n b s h hb
        simp only [chunkLoop, if_pos h]
        unfold chunkEnd at hb
        simp only [if_neg hb]
        exact this
    · simpa [chunkLoop, h] using done (k + 1) i n b s h

theorem cons_cons_eq_append_cons {α : Type} {a b x : α} (rest : List α) {pre post : List α}
    (h : a :: b :: rest = pre ++ x :: post) :
    (pre = [] ∧ x = a ∧ post = b :: rest) ∨ (pre = [a] ∧ x = b ∧ post = rest) ∨
      ∃ pre1, pre = a :: b :: pre1 ∧ rest = pre1 ++ x :: post := by
  cases pre with
  | nil => simp at h; left; exact ⟨rfl, h.1.symm, h.2.symm⟩
  | cons y pre =>
    cases pre with
    | nil => simp at h; right; left; simp [h.1, h.2.1, h.2.2]
    | cons z pre =>
      simp at h
      right; right
      exact ⟨pre, by simp [h.1, h.2.1], h.2.2⟩

theorem singleton_eq_append_cons {α : Type} {a x : α} {pre post : List α}
    (h : [a] = pre ++ x :: post) : pre = [] ∧ x = a ∧ post = [] := by
  cases pre with
  | nil => simp at h; exact ⟨rfl, h.1.symm, h.2⟩
  | cons y pre => simp at h

theorem Conn.Read_eq (c : NetConn σ ε) (rl : Limiter σ ε) (wl : Option (Limiter σ ε))
    (fuel : Nat) (b : List Byte) (s : σ) :
    Conn.Read ⟨some c, some rl, wl⟩ fuel b s
      = (chunkLoop .read (readXfer c) rl.WaitN b.length
          (if (b.length : Int) < (rl.Limit s).1 then b.length else (rl.Limit s).1)
          fuel 0 0 b (rl.Limit s).2).after [.limit .read (rl.Limit s).1] := by
  simp [Conn.Read, readLoop_eq_chunkLoop]

theorem Conn.Write_eq (c : NetConn σ ε) (rl : Option (Limiter σ ε)) (wl : Limiter σ ε)
    (fuel : Nat) (p : List Byte) (s : σ) :
    Conn.Write ⟨some c, rl, some wl⟩ fuel p s
      = (chunkLoop .write (writeXfer c) wl.WaitN p.length
          (if (p.length : Int) < (wl.Limit s).1 then p.length else (wl.Limit s).1)
          fuel 0 0 p (wl.Limit s).2).after [.limit .write (wl.Limit s).1] := by
  simp [Conn.Write, writeLoop_eq_chunkLoop]

theorem chunkLoop_sum (d : Dir) (xf : σ → List Byte → Int → Int → Xfer σ ε)
    (wait : σ → Int → Option ε × σ) (nb limit : Int) (fuel : Nat)
    (i n : Int) (b : List Byte) (s : σ) (m : Int) (err : Option ε) :
      (chunkLoop d xf wait nb limit fuel i n b s).outcome = .returned m err →
      m = n + (xferCounts (chunkLoop d xf wait nb limit fuel i n b s).trace).sum := by
  revert m err
  refine chunkLoop_cases d xf wait nb limit
    (fun _ _ n _ _ r => ∀ m err, r.outcome = .returned m err →
      m = n + (xferCounts r.trace).sum) ?_ ?_ ?_ ?_ ?_ ?_ fuel i n b s
  · intro _ _ n _ _ _ m err h; simp at h; simp [xferCounts, h.1]
  · intro _ _ _ _ _ m err h; simp at h
  · intro _ _ _ _ _ _ _ m err h; simp at h
  · intro _ _ n _ _ _ _ _ _ _ m err h; simp at h; simp [xferCounts, ← h.1]
  · intro _ _ n _ _ _ _ _ _ _ _ m err h; simp at h; simp [xferCounts, ← h.1]
  · intro _ _ n _ _ _ _ _ _ _ ih m err h
    simp only [Run.after_outcome] at h
    have := ih m err h
    simp [xferCounts, this]; ring

theorem chunkLoop_charges (d : Dir) (xf : σ → List Byte → Int → Int → Xfer σ ε)
    (wait : σ → Int → Option ε × σ) (nb limit : Int) (fuel : Nat)
    (i n : Int) (b : List Byte) (s : σ) :
    charges (chunkLoop d xf wait nb limit fuel i n b s).trace
      = okCounts (chunkLoop d xf wait nb limit fuel i n b s).trace := by
  refine chunkLoop_cases d xf wait nb limit
    (fun _ _ _ _ _ r => charges r.trace = okCounts r.trace) ?_ ?_ ?_ ?_ ?_ ?_ fuel i n b s
  · intros; rfl
  · intros; rfl
  · intros; rfl
  · intros; simp [charges, okCounts]
  · intros; simp [charges, okCounts]
  · intro _ _ _ _ _ _ _ _ _ _ ih
    simp [charges, okCounts, ih]

/-- Every event of a loop trace, seen in its context. -/
theorem chunkLoop_events (d : Dir) (xf : σ → List Byte → Int → Int → Xfer σ ε)
    (wait : σ → Int → Option ε × σ) (nb limit : Int) (fuel : Nat)
    (i n : Int) (b : List Byte) (s : σ) :
    ∀ pre x post, (chunkLoop d xf wait nb limit fuel i n b s).trace = pre ++ x :: post →
      -- a charge follows a successful transfer of the same count
      (∀ dd m e, x = .waitN dd m e → dd = d ∧
        ∃ pre1 lo hi p, pre = pre1 ++ [.xfer d lo hi p m none]) ∧
      -- a failed charge ends the call
      (∀ dd m e, x = .waitN dd m (some e) → post = [] ∧
        (chunkLoop d xf wait nb limit fuel i n b s).outcome
          = .returned (n + (xferCounts pre).sum) (some e)) ∧
      -- a failed transfer ends the call
      (∀ dd lo hi p k e, x = .xfer dd lo hi p k (some e) → post = [] ∧
        (chunkLoop d xf wait nb limit fuel i n b s).outcome
          = .returned (n + (xferCounts pre).sum + k) (some e)) ∧
      -- what follows a transfer is its charge
      (∀ dd lo hi p k e y post1, x = .xfer dd lo hi p k e → post = y :: post1 →
        e = none ∧ ∃ werr, y = .waitN d k werr) ∧
      -- only transfers and charges of direction `d`
      ((∃ lo hi p k e, x = .xfer d lo hi p k e) ∨ ∃ m e, x = .waitN d m e) := by
  refine chunkLoop_cases d xf wait nb limit
    (fun _ _ n _ _ r => ∀ pre x post, r.trace = pre ++ x :: post →
      (∀ dd m e, x = .waitN dd m e → dd = d ∧
        ∃ pre1 lo hi p, pre = pre1 ++ [.xfer d lo hi p m none]) ∧
      (∀ dd m e, x = .waitN dd m (some e) → post = [] ∧
        r.outcome = .returned (n + (xferCounts pre).sum) (some e)) ∧
      (∀ dd lo hi p k e, x = .xfer dd lo hi p k (some e) → post = [] ∧
        r.outcome = .returned (n + (xferCounts pre).sum + k) (some e)) ∧
      (∀ dd lo hi p k e y post1, x = .xfer dd lo hi p k e → post = y :: post1 →
        e = none ∧ ∃ werr, y = .waitN d k werr) ∧
      ((∃ lo hi p k e, x = .xfer d lo hi p k e) ∨ ∃ m e, x = .waitN d m e))
    ?_ ?_ ?_ ?_ ?_ ?_ fuel i n b s
  · intro _ _ _ _ _ _ pre x post h; simp at h
  · intro _ _ _ _ _ pre x post h; simp at h
  · intro _ _ _ _ _ _ _ pre x post h; simp at h
  · intro _ i n b s err _ _ _ _ pre x post h
    obtain ⟨rfl, rfl, rfl⟩ := singleton_eq_append_cons h
    simp [xferCounts]
  · intro _ i n b s err _ _ _ _ _ pre x post h
    rcases cons_cons_eq_append_cons [] h with ⟨rfl, rfl, rfl⟩ | ⟨rfl, rfl, rfl⟩ |
      ⟨pre1, _, h2⟩
    · simp
      intros; subst_vars; simp
    · simp [xferCounts]
      exact ⟨[], _, _, _, rfl⟩
    · simp at h2
  · intro _ i n b s _ _ _ _ _ ih pre x post h
    simp only [Run.after_trace, Run.after_outcome, List.cons_append, List.nil_append] at h ⊢
    rcases cons_cons_eq_append_cons _ h with ⟨rfl, rfl, rfl⟩ | ⟨rfl, rfl, rfl⟩ |
      ⟨pre1, rfl, h2⟩
    · simp
      intros; subst_vars; simp
    · simp
      exact ⟨[], _, _, _, rfl⟩
    · obtain ⟨a1, a2, a3, a4, a5⟩ := ih pre1 x post h2
      refine ⟨?_, ?_, ?_, a4, a5⟩
      · intro dd m e hx
        obtain ⟨hd, pre2, lo, hi, p, hp⟩ := a1 dd m e hx
        subst hp
        exact ⟨hd, _ :: _ :: pre2, lo, hi, p, rfl⟩
      · intro dd m e hx
        obtain ⟨hp, ho⟩ := a2 dd m e hx
        refine ⟨hp, ?_⟩
        rw [ho]; simp [xferCounts]; ring
      · intro dd lo hi p k e hx
        obtain ⟨hp, ho⟩ := a3 dd lo hi p k e hx
        refine ⟨hp, ?_⟩
        rw [ho]; simp [xferCounts]; ring
theorem chunkEnd_ge {nb limit i : Int} (h : i < nb) (hl : 0 ≤ limit) :
    i ≤ chunkEnd nb limit i := by
  unfold chunkEnd; split_ifs <;> omega

theorem chunkLoop_returns (d : Dir) (xf : σ → List Byte → Int → Int → Xfer σ ε)
    (wait : σ → Int → Option ε × σ) (nb limit : Int) (hl : 0 < limit) (fuel : Nat)
    (i n : Int) (b : List Byte) (s : σ) (hi : 0 ≤ i) (hf : nb - i ≤ fuel * limit) :
    ∃ m err, (chunkLoop d xf wait nb limit fuel i n b s).outcome = .returned m err := by
  revert hi hf
  refine chunkLoop_cases d xf wait nb limit
    (fun fuel i _ _ _ r => 0 ≤ i → nb - i ≤ fuel * limit → ∃ m err, r.outcome = .returned m err)
    ?_ ?_ ?_ ?_ ?_ ?_ fuel i n b s
  · intros; intro _ _; exact ⟨_, _, rfl⟩
  · intro i _ _ _ h _ hf; simp at hf; omega
  · intro _ i _ _ _ h hb hi _
    exact absurd ⟨hi, chunkEnd_ge h hl.le⟩ hb
  · intros; intro _ _; exact ⟨_, _, rfl⟩
  · intros; intro _ _; exact ⟨_, _, rfl⟩
  · intro fuel i _ _ _ _ _ _ _ _ ih hi hf
    simp only [Run.after_outcome]
    apply ih (by omega)
    push_cast at hf
    linarith

/-- Events of a throttled call: those of the loop, after the quota query. -/
theorem throttled_events (d : Dir) (xf : σ → List Byte → Int → Int → Xfer σ ε)
    (wait : σ → Int → Option ε × σ) (nb limit q : Int) (fuel : Nat) (b : List Byte) (s : σ)
    (pre post : List (Event ε)) (x : Event ε)
    (h : ((chunkLoop d xf wait nb limit fuel 0 0 b s).after [.limit d q]).trace
      = pre ++ x :: post) :
    (∀ dd m e, x = .waitN dd m e → dd = d ∧
      ∃ pre1 lo hi p, pre = pre1 ++ [.xfer d lo hi p m none]) ∧
    (∀ dd m e, x = .waitN dd m (some e) → post = [] ∧
      ((chunkLoop d xf wait nb limit fuel 0 0 b s).after [.limit d q]).outcome
        = .returned (xferCounts pre).sum (some e)) ∧
    (∀ dd lo hi p k e, x = .xfer dd lo hi p k (some e) → post = [] ∧
      ((chunkLoop d xf wait nb limit fuel 0 0 b s).after [.limit d q]).outcome
        = .returned ((xferCounts pre).sum + k) (some e)) ∧
    (∀ dd lo hi p k e y post1, x = .xfer dd lo hi p k e → post = y :: post1 →
      e = none ∧ ∃ werr, y = .waitN d k werr) := by
  simp only [Run.after_trace, Run.after_outcome, List.singleton_append] at h ⊢
  cases pre with
  | nil =>
    simp only [List.nil_append, List.cons.injEq] at h
    obtain ⟨rfl, -⟩ := h
    simp
  | cons y pre =>
    simp only [List.cons_append, List.cons.injEq] at h
    obtain ⟨rfl, h⟩ := h
    obtain ⟨a1, a2, a3, a4, -⟩ := chunkLoop_events d xf wait nb limit fuel 0 0 b s pre x post h
    refine ⟨?_, ?_, ?_, a4⟩
    · intro dd m e hx
      obtain ⟨hd, pre1, lo, hi, p, rfl⟩ := a1 dd m e hx
      exact ⟨hd, _ :: pre1, lo, hi, p, rfl⟩
    · intro dd m e hx
      simpa [xferCounts] using a2 dd m e hx
    · intro dd lo hi p k e hx
      simpa [xferCounts] using a3 dd lo hi p k e hx

/-- Claim C3. With no limiter on a direction, `Conn.Read` (resp. `Conn.Write`) makes exactly
one call on the wrapped connection, with the whole buffer, makes no charge and no quota
query, and returns exactly the `(n, err)` of that call, whatever the wrapped connection
does. -/
theorem C3_passthrough_without_limiter (c : NetConn σ ε) (rl wl : Option (Limiter σ ε))
    (fuel : Nat) (b : List Byte) (s : σ) :
    ((Conn.Read ⟨some c, none, wl⟩ fuel b s).trace
        = [.xfer .read 0 b.length b (c.Read s b).n (c.Read s b).err] ∧
      (Conn.Read ⟨some c, none, wl⟩ fuel b s).outcome
        = .returned (c.Read s b).n (c.Read s b).err ∧
      (Conn.Read ⟨some c, none, wl⟩ fuel b s).state = (c.Read s b).state ∧
      (Conn.Read ⟨some c, none, wl⟩ fuel b s).buf = blit (c.Read s b).data b ∧
      (xferCounts (Conn.Read ⟨some c, none, wl⟩ fuel b s).trace).length = 1 ∧
      charges (Conn.Read ⟨some c, none, wl⟩ fuel b s).trace = [] ∧
      quotaQueries (Conn.Read ⟨some c, none, wl⟩ fuel b s).trace = []) ∧
    ((Conn.Write ⟨some c, rl, none⟩ fuel b s).trace
        = [.xfer .write 0 b.length b (c.Write s b).n (c.Write s b).err] ∧
      (Conn.Write ⟨some c, rl, none⟩ fuel b s).outcome
        = .returned (c.Write s b).n (c.Write s b).err ∧
      (Conn.Write ⟨some c, rl, none⟩ fuel b s).state = (c.Write s b).state ∧
      (Conn.Write ⟨some c, rl, none⟩ fuel b s).buf = b ∧
      (xferCounts (Conn.Write ⟨some c, rl, none⟩ fuel b s).trace).length = 1 ∧
      charges (Conn.Write ⟨some c, rl, none⟩ fuel b s).trace = [] ∧
      quotaQueries (Conn.Write ⟨some c, rl, none⟩ fuel b s).trace = []) := by
  simp [Conn.Read, Conn.Write, xferCounts, charges, quotaQueries]

/-- Claim C2. In every throttled `Conn.Read` and `Conn.Write`, whatever the wrapped connection
and the limiter do, every `WaitN` call comes right after a call on the wrapped connection
that returned no error and is made with the count that call returned; so the charge
amounts are, in order, the counts returned by the calls that returned no error. -/
theorem C2_charge_is_count_transferred (c : NetConn σ ε) (rl wl : Limiter σ ε)
    (orl owl : Option (Limiter σ ε)) (fuel : Nat) (b : List Byte) (s : σ) :
    (charges (Conn.Read ⟨some c, some rl, owl⟩ fuel b s).trace
        = okCounts (Conn.Read ⟨some c, some rl, owl⟩ fuel b s).trace ∧
      ∀ pre post dd m e,
        (Conn.Read ⟨some c, some rl, owl⟩ fuel b s).trace = pre ++ .waitN dd m e :: post →
        dd = .read ∧ ∃ pre1 lo hi p, pre = pre1 ++ [.xfer .read lo hi p m none]) ∧
    (charges (Conn.Write ⟨some c, orl, some wl⟩ fuel b s).trace
        = okCounts (Conn.Write ⟨some c, orl, some wl⟩ fuel b s).trace ∧
      ∀ pre post dd m e,
        (Conn.Write ⟨some c, orl, some wl⟩ fuel b s).trace = pre ++ .waitN dd m e :: post →
        dd = .write ∧ ∃ pre1 lo hi p, pre = pre1 ++ [.xfer .write lo hi p m none]) := by
  rw [Conn.Read_eq, Conn.Write_eq]
  refine ⟨⟨?_, ?_⟩, ?_, ?_⟩
  · simp [charges, okCounts, chunkLoop_charges]
  · intro pre post dd m e h
    exact (throttled_events _ _ _ _ _ _ _ _ _ _ _ _ h).1 dd m e rfl
  · simp [charges, okCounts, chunkLoop_charges]
  · intro pre post dd m e h
    exact (throttled_events _ _ _ _ _ _ _ _ _ _ _ _ h).1 dd m e rfl

end

/-- Witness for C2: a run with a short first transfer (1 byte of a 2-byte slice). -/
theorem C2_charge_is_count_transferred_witness :
    charges (Conn.Read ⟨some (shortConn Unit), some (stubLimiter Unit 2), none⟩ 4
        (zeros 4) 0).trace
      = okCounts (Conn.Read ⟨some (shortConn Unit), some (stubLimiter Unit 2), none⟩ 4
        (zeros 4) 0).trace ∧
    (Dir.read = Dir.read ∧ ∃ pre1 lo hi p,
      [Event.limit Dir.read 2, Event.xfer Dir.read 0 2 [0, 0] 1 (none : Option Unit)]
        = pre1 ++ [Event.xfer Dir.read lo hi p 1 none]) :=
  ⟨(C2_charge_is_count_transferred (shortConn Unit) (stubLimiter Unit 2)
      (stubLimiter Unit 2) none none 4 (zeros 4) 0).1.1,
   (C2_charge_is_count_transferred (shortConn Unit) (stubLimiter Unit 2)
      (stubLimiter Unit 2) none none 4 (zeros 4) 0).1.2
      [.limit .read 2, .xfer .read 0 2 [0, 0] 1 none]
      [.xfer .read 2 4 [0, 0] 2 none, .waitN .read 2 none] .read 1 none (by decide)⟩

/-- Counterexample to C5 as stated: the first call on the wrapped connection returns
`(1, err)`; the call returns 1, not the sum 0 of the counts of the earlier chunks. -/
theorem C5_counterexample :
    (Conn.Read ⟨some (partialConn 1 ()), some (stubLimiter Unit 2), none⟩ 4 (zeros 4) 0).trace
      = [.limit .read 2, .xfer .read 0 2 [0, 0] 1 (some ())] ∧
    (Conn.Read ⟨some (partialConn 1 ()), some (stubLimiter Unit 2), none⟩ 4
      (zeros 4) 0).outcome = .returned 1 (some ()) ∧
    (Conn.Read ⟨some (partialConn 1 ()), some (stubLimiter Unit 2), none⟩ 4
      (zeros 4) 0).outcome ≠ .returned 0 (some ()) := by
  decide

section
variable {σ ε : Type}

theorem chunkSizes_zero (c : Nat) : chunkSizes 0 c = [] := by
  simp [chunkSizes]

theorem chunkSizes_step {r c : Nat} (hc : 0 < c) (hr : 0 < r) :
    chunkSizes r c = ((min r c : Nat) : Int) :: chunkSizes (r - c) c := by
  unfold chunkSizes
  by_cases h : c ≤ r
  · have h1 : r / c = (r - c) / c + 1 := by
      rw [← Nat.sub_add_cancel h, Nat.add_div_right _ hc]; simp
    have h2 : r % c = (r - c) % c := by
      conv_lhs => rw [← Nat.sub_add_cancel h]
      simp
    rw [h1, h2, List.replicate_succ, Nat.min_eq_right h]
    simp
  · have hlt : r < c := by omega
    have h1 : r / c = 0 := Nat.div_eq_of_lt hlt
    have h2 : r % c = r := Nat.mod_eq_of_lt hlt
    have h3 : r - c = 0 := by omega
    rw [h1, h2, h3, Nat.min_eq_left hlt.le]
    simp [Nat.pos_iff_ne_zero.mp hr]

theorem chunkSizes_length (S : Nat) {L : Nat} (hL : 0 < L) :
    (chunkSizes S L).length = (S + L - 1) / L := by
  unfold chunkSizes
  have hS : S = (S / L) * L + S % L := by rw [Nat.mul_comm]; exact (Nat.div_add_mod S L).symm
  have hm : S % L < L := Nat.mod_lt _ hL
  have hsucc : (S / L + 1) * L = (S / L) * L + L := Nat.succ_mul _ _
  have hsucc2 : (S / L + 1 + 1) * L = (S / L) * L + L + L := by
    rw [Nat.succ_mul, Nat.succ_mul]
  split_ifs with h
  · simp only [List.append_nil, List.length_replicate]
    symm
    apply Nat.div_eq_of_lt_le <;> omega
  · simp only [List.length_append, List.length_replicate, List.length_singleton]
    symm
    apply Nat.div_eq_of_lt_le <;> omega

theorem chunkSizes_min (S L : Nat) :
    chunkSizes S (min S L) = chunkSizes S L := by
  by_cases h : L ≤ S
  · rw [Nat.min_eq_right h]
  · have hlt : S < L := by omega
    rw [Nat.min_eq_left hlt.le]
    by_cases h0 : S = 0
    · subst h0; simp [chunkSizes]
    · simp [chunkSizes, Nat.div_eq_of_lt hlt, Nat.mod_eq_of_lt hlt, h0, Nat.div_self (Nat.pos_of_ne_zero h0)]
end

section
variable {σ ε : Type}

theorem blit_length (data old : List Byte) : (blit data old).length = old.length := by
  simp [blit]; omega

theorem slice_length {b : List Byte} {lo hi : Int} (h0 : 0 ≤ lo) (h1 : lo ≤ hi)
    (h2 : hi ≤ b.length) : ((slice b lo hi).length : Int) = hi - lo := by
  simp [slice]; omega

theorem store_length {b : List Byte} {lo hi : Int} (h0 : 0 ≤ lo) (h1 : lo ≤ hi)
    (h2 : hi ≤ b.length) (data : List Byte) : (store b lo hi data).length = b.length := by
  have := slice_length h0 h1 h2
  simp [store, blit_length]
  omega

theorem chunkEnd_le (nb limit i : Int) (_h : i < nb) : chunkEnd nb limit i ≤ nb := by
  unfold chunkEnd; split_ifs <;> omega

theorem chunkLoop_full (d : Dir) (xf : σ → List Byte → Int → Int → Xfer σ ε)
    (wait : σ → Int → Option ε × σ) (nb limit : Int) (hl : 0 < limit)
    (hx : WholeSlices xf) (hw : ∀ s m, (wait s m).1 = none) (fuel : Nat)
    (i n : Int) (b : List Byte) (s : σ) (hi : 0 ≤ i) (hb : (b.length : Int) = nb)
    (hf : nb - i ≤ fuel * limit) :
    (chunkLoop d xf wait nb limit fuel i n b s).outcome
        = .returned (n + ((nb - i).toNat : Int)) none ∧
      charges (chunkLoop d xf wait nb limit fuel i n b s).trace
        = chunkSizes (nb - i).toNat limit.toNat ∧
      xferCounts (chunkLoop d xf wait nb limit fuel i n b s).trace
        = chunkSizes (nb - i).toNat limit.toNat ∧
      (chunkLoop d xf wait nb limit fuel i n b s).buf.length = b.length := by
  revert hi hb hf
  refine chunkLoop_cases d xf wait nb limit
    (fun fuel i n b _ r => 0 ≤ i → (b.length : Int) = nb → nb - i ≤ fuel * limit →
      r.outcome = .returned (n + ((nb - i).toNat : Int)) none ∧
      charges r.trace = chunkSizes (nb - i).toNat limit.toNat ∧
      xferCounts r.trace = chunkSizes (nb - i).toNat limit.toNat ∧
      r.buf.length = b.length)
    ?_ ?_ ?_ ?_ ?_ ?_ fuel i n b s
  · intro _ i n _ _ h _ _ _
    have h0 : (nb - i).toNat = 0 := by omega
    simp [h0, chunkSizes_zero, charges, xferCounts]
  · intro i _ _ _ h _ _ hf; simp at hf; omega
  · intro _ i _ _ _ h hb hi _ _
    exact absurd ⟨hi, chunkEnd_ge h hl.le⟩ hb
  · intro _ i _ b s err h hi he herr _ hb _
    have := (hx s b i (chunkEnd nb limit i) hi he (hb ▸ chunkEnd_le nb limit i h)).1
    rw [herr] at this; cases this
  · intro _ i _ b s err _ _ _ _ hwe
    rw [hw] at hwe; cases hwe
  · intro fuel i n b s h hi he _ _ ih _ hb hf
    obtain ⟨-, hn, hlen⟩ := hx s b i (chunkEnd nb limit i) hi he (hb ▸ chunkEnd_le nb limit i h)
    have hf1 : nb - (i + limit) ≤ fuel * limit := by push_cast at hf; linarith
    obtain ⟨a1, a2, a3, a4⟩ := ih (by omega) (by rw [hlen]; exact hb) hf1
    have hr : 0 < (nb - i).toNat := by omega
    have hc : 0 < limit.toNat := by omega
    have hmin : (xf s b i (chunkEnd nb limit i)).n
        = ((min (nb - i).toNat limit.toNat : Nat) : Int) := by
      rw [hn]; unfold chunkEnd; split_ifs <;> omega
    have hsub : (nb - (i + limit)).toNat = (nb - i).toNat - limit.toNat := by omega
    simp only [Run.after_outcome, Run.after_trace, Run.after_buf]
    refine ⟨?_, ?_, ?_, ?_⟩
    · rw [a1]
      congr 1
      rw [hn]; unfold chunkEnd; split_ifs <;> omega
    · rw [chunkSizes_step hc hr, ← hsub, ← a2, ← hmin]; simp [charges]
    · rw [chunkSizes_step hc hr, ← hsub, ← a3, ← hmin]; simp [xferCounts]
    · rw [a4, hlen]

theorem readXfer_whole (c : NetConn σ ε)
    (hread : ∀ s p, (c.Read s p).n = p.length ∧ (c.Read s p).err = none) :
    WholeSlices (readXfer c) := by
  intro s b lo hi h0 h1 h2
  refine ⟨(hread _ _).2, ?_, store_length h0 h1 h2 _⟩
  simp only [readXfer]
  rw [(hread _ _).1, slice_length h0 h1 h2]

theorem writeXfer_whole (c : NetConn σ ε)
    (hwrite : ∀ s p, (c.Write s p).n = p.length ∧ (c.Write s p).err = none) :
    WholeSlices (writeXfer c) := by
  intro s b lo hi h0 h1 h2
  refine ⟨(hwrite _ _).2, ?_, rfl⟩
  simp only [writeXfer]
  rw [(hwrite _ _).1, slice_length h0 h1 h2]

end

section
variable {σ ε : Type}

theorem le_ceil_mul (S : Nat) {L : Nat} (hL : 0 < L) : S ≤ ((S + L - 1) / L) * L := by
  have h1 := Nat.div_add_mod (S + L - 1) L
  have h2 := Nat.mod_lt (S + L - 1) hL
  rw [Nat.mul_comm] at h1
  omega

theorem throttled_full (d : Dir) (xf : σ → List Byte → Int → Int → Xfer σ ε)
    (wait : σ → Int → Option ε × σ) (L : Nat) (hL : 0 < L)
    (hx : WholeSlices xf) (hw : ∀ s m, (wait s m).1 = none) (fuel : Nat)
    (b : List Byte) (s : σ) (hf : (b.length + L - 1) / L ≤ fuel) :
    ((chunkLoop d xf wait b.length (if (b.length : Int) < L then b.length else L)
        fuel 0 0 b s).after [.limit d L]).outcome = .returned b.length none ∧
      charges ((chunkLoop d xf wait b.length (if (b.length : Int) < L then b.length else L)
        fuel 0 0 b s).after [.limit d L]).trace = chunkSizes b.length L ∧
      xferCounts ((chunkLoop d xf wait b.length (if (b.length : Int) < L then b.length else L)
        fuel 0 0 b s).after [.limit d L]).trace = chunkSizes b.length L := by
  simp only [Run.after_outcome, Run.after_trace, List.singleton_append, charges, xferCounts]
  by_cases h0 : b.length = 0
  · cases fuel <;> simp [chunkLoop, h0, chunkSizes_zero, charges, xferCounts]
  · have hpos : 0 < b.length := Nat.pos_of_ne_zero h0
    have hceil := le_ceil_mul b.length hL
    have hmul : ((b.length + L - 1) / L) * L ≤ fuel * L := Nat.mul_le_mul_right _ hf
    split_ifs with hlt
    · have hlt1 : b.length < L := by exact_mod_cast hlt
      have hfuel : b.length ≤ fuel * b.length := by
        have : 1 ≤ fuel := by
          have : 1 ≤ (b.length + L - 1) / L := (Nat.one_le_div_iff hL).mpr (by omega)
          omega
        exact Nat.le_mul_of_pos_left _ this
      have := chunkLoop_full d xf wait b.length b.length (by exact_mod_cast hpos) hx hw
        fuel 0 0 b s le_rfl rfl (by simp; exact_mod_cast hfuel)
      simp only [sub_zero, Int.toNat_ofNat, zero_add] at this
      have hm := chunkSizes_min b.length L
      rw [Nat.min_eq_left hlt1.le] at hm
      rw [hm] at this
      exact ⟨this.1, this.2.1, this.2.2.1⟩
    · have hge : L ≤ b.length := by
        have : ¬ b.length < L := by exact_mod_cast hlt
        omega
      have := chunkLoop_full d xf wait b.length L (by exact_mod_cast hL) hx hw
        fuel 0 0 b s le_rfl rfl (by simp; exact_mod_cast (le_trans hceil hmul))
      simp only [sub_zero, Int.toNat_ofNat, zero_add] at this
      exact ⟨this.1, this.2.1, this.2.2.1⟩

/-- Claim C1. Let the buffer have length `S` and the limiter report the integer quota `L > 0`.
If every call on the wrapped connection transfers its whole slice without error and every
charge succeeds, then, given fuel for `⌈S / L⌉` iterations, throttled `Conn.Read` and
`Conn.Write` return `(S, nil)` after exactly `⌈S / L⌉` calls on the wrapped connection and
`⌈S / L⌉` charges, the charge amounts being `L` repeated `⌊S / L⌋` times followed by
`S mod L` when that is not zero. -/
theorem C1_successful_transfer_chunks (c : NetConn σ ε) (rl wl : Limiter σ ε)
    (orl owl : Option (Limiter σ ε)) (fuel : Nat) (b : List Byte) (s : σ) (L : Nat)
    (hL : 0 < L)
    (hread : ∀ s p, (c.Read s p).n = p.length ∧ (c.Read s p).err = none)
    (hwrite : ∀ s p, (c.Write s p).n = p.length ∧ (c.Write s p).err = none)
    (hrl : ∀ s m, (rl.WaitN s m).1 = none) (hwl : ∀ s m, (wl.WaitN s m).1 = none)
    (hrq : (rl.Limit s).1 = L) (hwq : (wl.Limit s).1 = L)
    (hf : (b.length + L - 1) / L ≤ fuel) :
    ((Conn.Read ⟨some c, some rl, owl⟩ fuel b s).outcome = .returned b.length none ∧
      charges (Conn.Read ⟨some c, some rl, owl⟩ fuel b s).trace = chunkSizes b.length L ∧
      xferCounts (Conn.Read ⟨some c, some rl, owl⟩ fuel b s).trace
        = chunkSizes b.length L ∧
      (charges (Conn.Read ⟨some c, some rl, owl⟩ fuel b s).trace).length
        = (b.length + L - 1) / L ∧
      (xferCounts (Conn.Read ⟨some c, some rl, owl⟩ fuel b s).trace).length
        = (b.length + L - 1) / L) ∧
    ((Conn.Write ⟨some c, orl, some wl⟩ fuel b s).outcome = .returned b.length none ∧
      charges (Conn.Write ⟨some c, orl, some wl⟩ fuel b s).trace = chunkSizes b.length L ∧
      xferCounts (Conn.Write ⟨some c, orl, some wl⟩ fuel b s).trace
        = chunkSizes b.length L ∧
      (charges (Conn.Write ⟨some c, orl, some wl⟩ fuel b s).trace).length
        = (b.length + L - 1) / L ∧
      (xferCounts (Conn.Write ⟨some c, orl, some wl⟩ fuel b s).trace).length
        = (b.length + L - 1) / L) := by
  rw [Conn.Read_eq, Conn.Write_eq, hrq, hwq]
  obtain ⟨r1, r2, r3⟩ := throttled_full .read (readXfer c) rl.WaitN L hL
    (readXfer_whole c hread) hrl fuel b (rl.Limit s).2 hf
  obtain ⟨w1, w2, w3⟩ := throttled_full .write (writeXfer c) wl.WaitN L hL
    (writeXfer_whole c hwrite) hwl fuel b (wl.Limit s).2 hf
  refine ⟨⟨r1, r2, r3, ?_, ?_⟩, w1, w2, w3, ?_, ?_⟩
  · rw [r2, chunkSizes_length _ hL]
  · rw [r3, chunkSizes_length _ hL]
  · rw [w2, chunkSizes_length _ hL]
  · rw [w3, chunkSizes_length _ hL]

end

set_option maxRecDepth 100000 in
/-- Witness for C1: the successful cases of conn_test.go. A 555-byte buffer with quota 100
is charged `[100, 100, 100, 100, 100, 55]` and returns 555; a 55-byte buffer with quota 100
is charged `[55]` and returns 55. -/
theorem C1_successful_transfer_chunks_witness :
    ((Conn.Read ⟨some (stubConn Unit), some (stubLimiter Unit 100), none⟩ 6
        (zeros 555) 0).outcome = .returned 555 none ∧
      charges (Conn.Read ⟨some (stubConn Unit), some (stubLimiter Unit 100), none⟩ 6
        (zeros 555) 0).trace = [100, 100, 100, 100, 100, 55]) ∧
    ((Conn.Write ⟨some (stubConn Unit), none, some (stubLimiter Unit 100)⟩ 6
        (zeros 555) 0).outcome = .returned 555 none ∧
      charges (Conn.Write ⟨some (stubConn Unit), none, some (stubLimiter Unit 100)⟩ 6
        (zeros 555) 0).trace = [100, 100, 100, 100, 100, 55]) ∧
    ((Conn.Read ⟨some (stubConn Unit), some (stubLimiter Unit 100), none⟩ 1
        (zeros 55) 0).outcome = .returned 55 none ∧
      charges (Conn.Read ⟨some (stubConn Unit), some (stubLimiter Unit 100), none⟩ 1
        (zeros 55) 0).trace = [55]) := by
  have h := C1_successful_transfer_chunks (stubConn Unit) (stubLimiter Unit 100)
    (stubLimiter Unit 100) none none 6 (zeros 555) 0 100 (by decide)
    (fun _ _ => ⟨rfl, rfl⟩) (fun _ _ => ⟨rfl, rfl⟩) (fun _ _ => rfl) (fun _ _ => rfl)
    rfl rfl (by decide)
  have g := C1_successful_transfer_chunks (stubConn Unit) (stubLimiter Unit 100)
    (stubLimiter Unit 100) none none 1 (zeros 55) 0 100 (by decide)
    (fun _ _ => ⟨rfl, rfl⟩) (fun _ _ => ⟨rfl, rfl⟩) (fun _ _ => rfl) (fun _ _ => rfl)
    rfl rfl (by decide)
  have hlen : (zeros 555).length = 555 := by decide
  have hc : chunkSizes 555 100 = [100, 100, 100, 100, 100, 55] := by decide
  have glen : (zeros 55).length = 55 := by decide
  have gc : chunkSizes 55 100 = [55] := by decide
  rw [hlen, hc] at h
  rw [glen, gc] at g
  exact ⟨⟨h.1.1, h.1.2.1⟩, ⟨h.2.1, h.2.2.1⟩, g.1.1, g.1.2.1⟩

section
variable {σ ε : Type}

theorem xferCounts_append (a b : List (Event ε)) :
    xferCounts (a ++ b) = xferCounts a ++ xferCounts b := by
  induction a with
  | nil => rfl
  | cons x a ih => cases x <;> simp [xferCounts, ih]

/-- Where and on what a transfer of the loop is made: the slice starts `limit` further for
every earlier transfer. -/
theorem chunkLoop_xfer_at (d : Dir) (xf : σ → List Byte → Int → Int → Xfer σ ε)
    (wait : σ → Int → Option ε × σ) (nb limit : Int) (fuel : Nat)
    (i n : Int) (b : List Byte) (s : σ) :
    ∀ pre post dd lo hi p k e,
      (chunkLoop d xf wait nb limit fuel i n b s).trace = pre ++ .xfer dd lo hi p k e :: post →
      lo = i + (xferCounts pre).length * limit ∧ hi = chunkEnd nb limit lo ∧
        0 ≤ lo ∧ lo ≤ hi ∧ lo < nb ∧
        ((∀ s b lo hi, (xf s b lo hi).buf = b) → p = slice b lo hi) := by
  refine chunkLoop_cases d xf wait nb limit
    (fun _ i _ b _ r => ∀ pre post dd lo hi p k e,
      r.trace = pre ++ .xfer dd lo hi p k e :: post →
      lo = i + (xferCounts pre).length * limit ∧ hi = chunkEnd nb limit lo ∧
        0 ≤ lo ∧ lo ≤ hi ∧ lo < nb ∧
        ((∀ s b lo hi, (xf s b lo hi).buf = b) → p = slice b lo hi))
    ?_ ?_ ?_ ?_ ?_ ?_ fuel i n b s
  · intro _ _ _ _ _ _ pre post dd lo hi p k e h; simp at h
  · intro _ _ _ _ _ pre post dd lo hi p k e h; simp at h
  · intro _ _ _ _ _ _ _ pre post dd lo hi p k e h; simp at h
  · intro _ i n b s err hlt h0 h1 _ pre post dd lo hi p k e h
    obtain ⟨rfl, hx, rfl⟩ := singleton_eq_append_cons h
    simp only [Event.xfer.injEq] at hx
    obtain ⟨-, rfl, rfl, rfl, -, -⟩ := hx
    simp [xferCounts, h0, h1, hlt]
  · intro _ i n b s err hlt h0 h1 _ _ pre post dd lo hi p k e h
    rcases cons_cons_eq_append_cons [] h with ⟨rfl, hx, rfl⟩ | ⟨rfl, hx, rfl⟩ | ⟨pre1, _, h2⟩
    · simp only [Event.xfer.injEq] at hx
      obtain ⟨-, rfl, rfl, rfl, -, -⟩ := hx
      simp [xferCounts, h0, h1, hlt]
    · simp at hx
    · simp at h2
  · intro _ i n b s hlt h0 h1 _ _ ih pre post dd lo hi p k e h
    simp only [Run.after_trace, List.cons_append, List.nil_append] at h
    rcases cons_cons_eq_append_cons _ h with ⟨rfl, hx, rfl⟩ | ⟨rfl, hx, rfl⟩ | ⟨pre1, rfl, h2⟩
    · simp only [Event.xfer.injEq] at hx
      obtain ⟨-, rfl, rfl, rfl, -, -⟩ := hx
      simp [xferCounts, h0, h1, hlt]
    · simp at hx
    · obtain ⟨a1, a2, a3, a4, a5, a6⟩ := ih pre1 post dd lo hi p k e h2
      refine ⟨?_, a2, a3, a4, a5, ?_⟩
      · rw [a1]; simp [xferCounts]; ring
      · intro hbuf
        have := a6 hbuf
        rwa [hbuf] at this

/-- The transfers of a throttled call, with the quota query in front of the loop. -/
theorem throttled_xfer_at (d : Dir) (xf : σ → List Byte → Int → Int → Xfer σ ε)
    (wait : σ → Int → Option ε × σ) (nb limit q : Int) (fuel : Nat) (b : List Byte) (s : σ)
    (pre post : List (Event ε)) (dd : Dir) (lo hi : Int) (p : List Byte) (k : Int)
    (e : Option ε)
    (h : ((chunkLoop d xf wait nb limit fuel 0 0 b s).after [.limit d q]).trace
      = pre ++ .xfer dd lo hi p k e :: post) :
    lo = (xferCounts pre).length * limit ∧ hi = min (lo + limit) nb ∧
      0 ≤ lo ∧ lo ≤ hi ∧ lo < nb ∧
      ((∀ s b lo hi, (xf s b lo hi).buf = b) → p = slice b lo hi) := by
  simp only [Run.after_trace, List.singleton_append] at h
  cases pre with
  | nil => simp at h
  | cons y pre =>
    simp only [List.cons_append, List.cons.injEq] at h
    obtain ⟨rfl, h⟩ := h
    obtain ⟨a1, a2, a3, a4, a5, a6⟩ := chunkLoop_xfer_at d xf wait nb limit fuel 0 0 b s
      pre post dd lo hi p k e h
    refine ⟨by simpa [xferCounts] using a1, ?_, a3, a4, a5, a6⟩
    rw [a2]; unfold chunkEnd
    split_ifs with hh
    · exact (min_eq_right (by omega)).symm
    · exact (min_eq_left (by omega)).symm

end

section
variable {σ ε : Type}

theorem slice_append_drop (b : List Byte) {nb limit i : Int} (hb : (b.length : Int) = nb)
    (h0 : 0 ≤ i) (hl : 0 < limit) :
    slice b i (chunkEnd nb limit i) ++ b.drop (i + limit).toNat = b.drop i.toNat := by
  unfold chunkEnd slice
  split_ifs with h
  · have h1 : b.drop (i + limit).toNat = [] := List.drop_eq_nil_of_le (by omega)
    rw [h1, List.append_nil]
    apply List.take_of_length_le
    simp; omega
  · have h1 : (i + limit).toNat = i.toNat + (i + limit - i).toNat := by omega
    rw [h1, ← List.drop_drop, List.take_append_drop]

theorem chunkLoop_full_data (d : Dir) (xf : σ → List Byte → Int → Int → Xfer σ ε)
    (wait : σ → Int → Option ε × σ) (nb limit : Int) (hl : 0 < limit)
    (hx : WholeSlices xf) (hw : ∀ s m, (wait s m).1 = none)
    (hbuf : ∀ s b lo hi, (xf s b lo hi).buf = b) (fuel : Nat)
    (i n : Int) (b : List Byte) (s : σ) (hi : 0 ≤ i) (hb : (b.length : Int) = nb)
    (hf : nb - i ≤ fuel * limit) :
    (xferData (chunkLoop d xf wait nb limit fuel i n b s).trace).flatten
      = b.drop i.toNat := by
  revert hi hb hf
  refine chunkLoop_cases d xf wait nb limit
    (fun fuel i _ b _ r => 0 ≤ i → (b.length : Int) = nb → nb - i ≤ fuel * limit →
      (xferData r.trace).flatten = b.drop i.toNat)
    ?_ ?_ ?_ ?_ ?_ ?_ fuel i n b s
  · intro _ i _ b _ h _ hb _
    simp only [xferData, List.flatten_nil]
    exact (List.drop_eq_nil_of_le (by omega)).symm
  · intro i _ _ _ h _ _ hf; simp at hf; omega
  · intro _ i _ _ _ h hb hi _ _
    exact absurd ⟨hi, chunkEnd_ge h hl.le⟩ hb
  · intro _ i _ b s err h hi he herr _ hb _
    have := (hx s b i (chunkEnd nb limit i) hi he (hb ▸ chunkEnd_le nb limit i h)).1
    rw [herr] at this; cases this
  · intro _ i _ b s err _ _ _ _ hwe
    rw [hw] at hwe; cases hwe
  · intro fuel i n b s h hi he _ _ ih _ hb hf
    have hf1 : nb - (i + limit) ≤ fuel * limit := by push_cast at hf; linarith
    have := ih (by omega) (by rw [hbuf]; exact hb) hf1
    have e1 := hbuf s b i (chunkEnd nb limit i)
    rw [e1] at this ⊢
    have hs := slice_append_drop b hb hi hl
    simpa [xferData, this] using hs

end

section
variable {σ ε : Type}

theorem limit_eq_min (nb q : Int) : (if nb < q then nb else q) = min nb q := by
  split_ifs with h
  · exact (min_eq_left h.le).symm
  · exact (min_eq_right (by omega)).symm

/-- Order of the transfers of a throttled call with a positive quota. -/
theorem throttled_order (d : Dir) (xf : σ → List Byte → Int → Int → Xfer σ ε)
    (wait : σ → Int → Option ε × σ) (nb q : Int) (hq : 0 < q) (fuel : Nat) (b : List Byte)
    (s : σ) :
    (∀ pre post dd lo hi p k e,
      ((chunkLoop d xf wait nb (if nb < q then nb else q) fuel 0 0 b s).after
          [.limit d q]).trace = pre ++ .xfer dd lo hi p k e :: post →
        lo = (xferCounts pre).length * min nb q ∧ hi = min (lo + min nb q) nb ∧ lo < hi ∧
          ((∀ s b lo hi, (xf s b lo hi).buf = b) → p = slice b lo hi)) ∧
    (∀ pre mid post dd1 lo1 hi1 p1 k1 e1 dd2 lo2 hi2 p2 k2 e2,
      ((chunkLoop d xf wait nb (if nb < q then nb else q) fuel 0 0 b s).after
          [.limit d q]).trace
        = pre ++ .xfer dd1 lo1 hi1 p1 k1 e1 :: (mid ++ .xfer dd2 lo2 hi2 p2 k2 e2 :: post) →
        xferCounts mid = [] → hi1 = lo2 ∧ lo1 < lo2) ∧
    (∀ pre y post dd lo hi p k e,
      ((chunkLoop d xf wait nb (if nb < q then nb else q) fuel 0 0 b s).after
          [.limit d q]).trace = pre ++ .xfer dd lo hi p k e :: y :: post →
        ∃ werr, y = .waitN d k werr) := by
  rw [limit_eq_min]
  have key : ∀ pre post dd lo hi p k e,
      ((chunkLoop d xf wait nb (min nb q) fuel 0 0 b s).after
          [.limit d q]).trace = pre ++ .xfer dd lo hi p k e :: post →
        lo = (xferCounts pre).length * min nb q ∧ hi = min (lo + min nb q) nb ∧ lo < hi ∧
          0 < min nb q ∧ lo < nb ∧
          ((∀ s b lo hi, (xf s b lo hi).buf = b) → p = slice b lo hi) := by
    intro pre post dd lo hi p k e h
    obtain ⟨a1, a2, a3, a4, a5, a6⟩ := throttled_xfer_at _ _ _ _ _ _ _ _ _ _ _ _ _ _ _ _ _ h
    have hc : 0 < min nb q := lt_min (by omega) hq
    refine ⟨a1, a2, ?_, hc, a5, a6⟩
    rw [a2]; exact lt_min (by omega) a5
  refine ⟨?_, ?_, ?_⟩
  · intro pre post dd lo hi p k e h
    obtain ⟨a1, a2, a3, -, -, a6⟩ := key _ _ _ _ _ _ _ _ h
    exact ⟨a1, a2, a3, a6⟩
  · intro pre mid post dd1 lo1 hi1 p1 k1 e1 dd2 lo2 hi2 p2 k2 e2 h hmid
    obtain ⟨a1, a2, -, hc, -, -⟩ := key _ _ _ _ _ _ _ _ h
    have h2 : ((chunkLoop d xf wait nb (min nb q) fuel 0 0 b s).after [.limit d q]).trace
        = (pre ++ .xfer dd1 lo1 hi1 p1 k1 e1 :: mid) ++ .xfer dd2 lo2 hi2 p2 k2 e2 :: post := by
      rw [h]; simp
    obtain ⟨b1, -, -, -, b5, -⟩ := key _ _ _ _ _ _ _ _ h2
    have hlen : ((xferCounts (pre ++ .xfer dd1 lo1 hi1 p1 k1 e1 :: mid)).length : Int)
        = (xferCounts pre).length + 1 := by
      simp [xferCounts_append, xferCounts, hmid]
    rw [hlen] at b1
    have e2 : lo2 = lo1 + min nb q := by rw [b1, a1]; ring
    refine ⟨?_, by omega⟩
    rw [a2, e2]
    exact min_eq_left (by omega)
  · intro pre y post dd lo hi p k e h
    exact ((throttled_events _ _ _ _ _ _ _ _ _ _ _ _ h).2.2.2 dd lo hi p k e y post rfl rfl).2

end

section
variable {σ ε : Type}

theorem throttled_full_data (d : Dir) (xf : σ → List Byte → Int → Int → Xfer σ ε)
    (wait : σ → Int → Option ε × σ) (q : Int) (hq : 0 < q)
    (hx : WholeSlices xf) (hw : ∀ s m, (wait s m).1 = none)
    (hbuf : ∀ s b lo hi, (xf s b lo hi).buf = b) (fuel : Nat)
    (b : List Byte) (s : σ) (hf : b.length ≤ fuel) :
    (xferData ((chunkLoop d xf wait b.length (if (b.length : Int) < q then b.length else q)
        fuel 0 0 b s).after [.limit d q]).trace).flatten = b := by
  simp only [Run.after_trace, List.singleton_append, xferData]
  by_cases h0 : b.length = 0
  · have hb : b = [] := List.length_eq_zero.mp h0
    subst hb
    cases fuel <;> simp [chunkLoop, xferData]
  · have hpos : (1 : Int) ≤ b.length := by omega
    have hfz : (b.length : Int) ≤ fuel := by exact_mod_cast hf
    have hl : 0 < (if (b.length : Int) < q then (b.length : Int) else q) := by
      split_ifs <;> omega
    have := chunkLoop_full_data d xf wait b.length _ hl hx hw hbuf fuel 0 0 b s le_rfl rfl
      (by nlinarith)
    simpa using this

/-- Claim C8. In a throttled `Conn.Write` or `Conn.Read` with quota `L > 0` on a buffer of
length `S`, whatever the collaborators do, write `c = min S L`. The transfer made after `j`
earlier transfers is on the non-empty slice `[j * c : min (j * c + c) S]` (for `Write`, with
the bytes of `p` at those offsets); the next transfer starts exactly where this one ends,
at a larger offset; and the event right after a transfer is the charge of its count, so the
charge comes before the next transfer. Hence, when every write transfers its whole slice
and every charge succeeds, the slices written, concatenated in call order, are `p`. -/
theorem C8_chunks_in_offset_order (c : NetConn σ ε) (rl wl : Limiter σ ε)
    (orl owl : Option (Limiter σ ε)) (fuel : Nat) (p : List Byte) (s : σ)
    (hrq : 0 < (rl.Limit s).1) (hwq : 0 < (wl.Limit s).1) :
    ((∀ pre post dd lo hi q k e,
        (Conn.Write ⟨some c, orl, some wl⟩ fuel p s).trace
          = pre ++ .xfer dd lo hi q k e :: post →
        lo = (xferCounts pre).length * min (p.length : Int) (wl.Limit s).1 ∧
          hi = min (lo + min (p.length : Int) (wl.Limit s).1) p.length ∧ lo < hi ∧
          q = slice p lo hi) ∧
      (∀ pre mid post dd1 lo1 hi1 p1 k1 e1 dd2 lo2 hi2 p2 k2 e2,
        (Conn.Write ⟨some c, orl, some wl⟩ fuel p s).trace
          = pre ++ .xfer dd1 lo1 hi1 p1 k1 e1 :: (mid ++ .xfer dd2 lo2 hi2 p2 k2 e2 :: post) →
        xferCounts mid = [] → hi1 = lo2 ∧ lo1 < lo2) ∧
      (∀ pre y post dd lo hi q k e,
        (Conn.Write ⟨some c, orl, some wl⟩ fuel p s).trace
          = pre ++ .xfer dd lo hi q k e :: y :: post →
        ∃ werr, y = .waitN .write k werr) ∧
      ((∀ s q, (c.Write s q).n = q.length ∧ (c.Write s q).err = none) →
        (∀ s m, (wl.WaitN s m).1 = none) → p.length ≤ fuel →
        (xferData (Conn.Write ⟨some c, orl, some wl⟩ fuel p s).trace).flatten = p)) ∧
    ((∀ pre post dd lo hi q k e,
        (Conn.Read ⟨some c, some rl, owl⟩ fuel p s).trace
          = pre ++ .xfer dd lo hi q k e :: post →
        lo = (xferCounts pre).length * min (p.length : Int) (rl.Limit s).1 ∧
          hi = min (lo + min (p.length : Int) (rl.Limit s).1) p.length ∧ lo < hi) ∧
      (∀ pre mid post dd1 lo1 hi1 p1 k1 e1 dd2 lo2 hi2 p2 k2 e2,
        (Conn.Read ⟨some c, some rl, owl⟩ fuel p s).trace
          = pre ++ .xfer dd1 lo1 hi1 p1 k1 e1 :: (mid ++ .xfer dd2 lo2 hi2 p2 k2 e2 :: post) →
        xferCounts mid = [] → hi1 = lo2 ∧ lo1 < lo2) ∧
      (∀ pre y post dd lo hi q k e,
        (Conn.Read ⟨some c, some rl, owl⟩ fuel p s).trace
          = pre ++ .xfer dd lo hi q k e :: y :: post →
        ∃ werr, y = .waitN .read k werr)) := by
  rw [Conn.Read_eq, Conn.Write_eq]
  obtain ⟨w1, w2, w3⟩ := throttled_order .write (writeXfer c) wl.WaitN p.length
    (wl.Limit s).1 hwq fuel p (wl.Limit s).2
  obtain ⟨r1, r2, r3⟩ := throttled_order .read (readXfer c) rl.WaitN p.length
    (rl.Limit s).1 hrq fuel p (rl.Limit s).2
  refine ⟨⟨?_, w2, w3, ?_⟩, ?_, r2, r3⟩
  · intro pre post dd lo hi q k e h
    obtain ⟨a1, a2, a3, a4⟩ := w1 pre post dd lo hi q k e h
    exact ⟨a1, a2, a3, a4 (fun _ _ _ _ => rfl)⟩
  · intro hwrite hwl hf
    exact throttled_full_data .write (writeXfer c) wl.WaitN _ hwq (writeXfer_whole c hwrite)
      hwl (fun _ _ _ _ => rfl) fuel p _ hf
  · intro pre post dd lo hi q k e h
    obtain ⟨a1, a2, a3, -⟩ := r1 pre post dd lo hi q k e h
    exact ⟨a1, a2, a3⟩

end

/-- Witness for C8: a 5-byte buffer written with quota 2 goes out as the slices `[0:2]`,
`[2:4]`, `[4:5]`, whose concatenation is the buffer. -/
theorem C8_chunks_in_offset_order_witness :
    ((4 : Int) = (xferCounts [Event.limit Dir.write 2,
          Event.xfer Dir.write 0 2 (content 0 2) 2 (none : Option Unit),
          Event.waitN Dir.write 2 none,
          Event.xfer Dir.write 2 4 (content 2 2) 2 none,
          Event.waitN Dir.write 2 none]).length * min ((content 0 5).length : Int) 2 ∧
      (5 : Int) = min (4 + min ((content 0 5).length : Int) 2) (content 0 5).length ∧
      (4 : Int) < 5 ∧ content 4 1 = slice (content 0 5) 4 5) ∧
    (xferData (Conn.Write ⟨some (stubConn Unit), none, some (stubLimiter Unit 2)⟩ 5
      (content 0 5) 0).trace).flatten = content 0 5 :=
  ⟨(C8_chunks_in_offset_order (stubConn Unit) (stubLimiter Unit 2) (stubLimiter Unit 2)
      none none 5 (content 0 5) 0 (by decide) (by decide)).1.1
      [.limit .write 2, .xfer .write 0 2 (content 0 2) 2 none, .waitN .write 2 none,
        .xfer .write 2 4 (content 2 2) 2 none, .waitN .write 2 none]
      [.waitN .write 1 none] .write 4 5 (content 4 1) 1 none (by decide),
   (C8_chunks_in_offset_order (stubConn Unit) (stubLimiter Unit 2) (stubLimiter Unit 2)
      none none 5 (content 0 5) 0 (by decide) (by decide)).1.2.2.2
      (fun _ _ => ⟨rfl, rfl⟩) (fun _ _ => rfl) (by decide)⟩

section
variable {σ ε : Type}

/-- With quota zero every transfer of a throttled call is on the empty slice `[0:0]`. -/
theorem zero_quota_slices (d : Dir) (xf : σ → List Byte → Int → Int → Xfer σ ε)
    (wait : σ → Int → Option ε × σ) (nb : Int) (hnb : 0 ≤ nb) (fuel : Nat) (b : List Byte)
    (s : σ) (pre post : List (Event ε)) (dd : Dir) (lo hi : Int) (p : List Byte) (k : Int)
    (e : Option ε)
    (h : ((chunkLoop d xf wait nb (if nb < 0 then nb else 0) fuel 0 0 b s).after
      [.limit d 0]).trace = pre ++ .xfer dd lo hi p k e :: post) :
    lo = 0 ∧ hi = 0 := by
  rw [if_neg (by omega)] at h
  obtain ⟨a1, a2, -, -, a5, -⟩ := throttled_xfer_at _ _ _ _ _ _ _ _ _ _ _ _ _ _ _ _ _ h
  simp at a1
  subst a1
  exact ⟨rfl, by rw [a2]; simp; omega⟩

/-- Claim C9 (the code at negative quotas). For every non-empty buffer and every negative
quota, the first iteration of throttled `Conn.Read` and `Conn.Write` computes `end = quota`,
below the start `0` of the slice: the slice expression panics before any call on the wrapped
connection is made. -/
theorem C9_negative_quota_panics (c : NetConn σ ε) (rl wl : Limiter σ ε)
    (orl owl : Option (Limiter σ ε)) (fuel : Nat) (b : List Byte) (s : σ)
    (hb : b ≠ []) (hrq : (rl.Limit s).1 < 0) (hwq : (wl.Limit s).1 < 0) :
    ((Conn.Read ⟨some c, some rl, owl⟩ (fuel + 1) b s).outcome = .panicked .sliceBounds ∧
      (Conn.Read ⟨some c, some rl, owl⟩ (fuel + 1) b s).trace
        = [.limit .read (rl.Limit s).1] ∧
      chunkEnd b.length (min (b.length : Int) (rl.Limit s).1) 0 < 0) ∧
    ((Conn.Write ⟨some c, orl, some wl⟩ (fuel + 1) b s).outcome = .panicked .sliceBounds ∧
      (Conn.Write ⟨some c, orl, some wl⟩ (fuel + 1) b s).trace
        = [.limit .write (wl.Limit s).1] ∧
      chunkEnd b.length (min (b.length : Int) (wl.Limit s).1) 0 < 0) := by
  have hlen : 0 < b.length := List.length_pos.mpr hb
  have hpos : (0 : Int) < b.length := by exact_mod_cast hlen
  rw [Conn.Read_eq, Conn.Write_eq]
  have e1 : ¬ ((b.length : Int) < (rl.Limit s).1) := by omega
  have e2 : ¬ ((b.length : Int) < (wl.Limit s).1) := by omega
  have m1 : min (b.length : Int) (rl.Limit s).1 = (rl.Limit s).1 := min_eq_right (by omega)
  have m2 : min (b.length : Int) (wl.Limit s).1 = (wl.Limit s).1 := min_eq_right (by omega)
  have g1 : ¬ ((rl.Limit s).1 > (b.length : Int)) := by omega
  have g2 : ¬ ((wl.Limit s).1 > (b.length : Int)) := by omega
  have k1 : ¬ (0 ≤ (rl.Limit s).1) := by omega
  have k2 : ¬ (0 ≤ (wl.Limit s).1) := by omega
  simp [chunkLoop, chunkEnd, e1, e2, m1, m2, hpos, hrq, hwq, g1, g2, k1, k2]

end

/-- Witness for C9: a one-byte buffer and quota `-1`. -/
theorem C9_negative_quota_panics_witness :
    (Conn.Read ⟨some (stubConn Unit), some (stubLimiter Unit (-1)), none⟩ 1
      (zeros 1) 0).outcome = .panicked .sliceBounds ∧
    (Conn.Write ⟨some (stubConn Unit), none, some (stubLimiter Unit (-1))⟩ 1
      (zeros 1) 0).outcome = .panicked .sliceBounds :=
  have h := C9_negative_quota_panics (stubConn Unit) (stubLimiter Unit (-1))
    (stubLimiter Unit (-1)) none none 0 (zeros 1) 0 (by decide) (by decide) (by decide)
  ⟨h.1.1, h.2.1⟩

set_option maxRecDepth 100000 in
/-- Claim C4 (the code on a short read). The wrapped connection delivers the stream
`byte(0), byte(1), ...`, one byte on its first call and whole slices afterwards, as the
stream contract allows. `Conn.Read` with quota 2 into a 4-byte buffer holding `9, 9, 9, 9`
returns `n = 3` after consuming 3 stream bytes, but the buffer is `0, 9, 1, 2`: its prefix
of length 3 is not the three bytes consumed. When every call fills its slice (the test of
conn_test.go, 555 bytes with quota 100) the buffer does hold the stream bytes. -/
theorem C4_short_read_leaves_gap :
    (Conn.Read ⟨some (shortConn Unit), some (stubLimiter Unit 2), none⟩ 4
        (List.replicate 4 9) 0).outcome = .returned 3 none ∧
    (Conn.Read ⟨some (shortConn Unit), some (stubLimiter Unit 2), none⟩ 4
        (List.replicate 4 9) 0).state = 3 ∧
    (Conn.Read ⟨some (shortConn Unit), some (stubLimiter Unit 2), none⟩ 4
        (List.replicate 4 9) 0).buf = [0, 9, 1, 2] ∧
    ((Conn.Read ⟨some (shortConn Unit), some (stubLimiter Unit 2), none⟩ 4
        (List.replicate 4 9) 0).buf.take 3 ≠ content 0 3) ∧
    (Conn.Read ⟨some (stubConn Unit), some (stubLimiter Unit 100), none⟩ 6
        (zeros 555) 0).buf = content 0 555 := by
  decide

section
variable {χ σ ε ρ : Type}

/-- Claim C10. If the base dial step fails with error `E`, the dial step of the transport
built by `NewTransport` returns `(nil, E)`: no `Conn` is constructed, the only call made is
the base dial, and no limiter is queried or charged. -/
theorem C10_dial_error_is_returned (DefaultTransport : Transport (Dial χ σ ε) ρ)
    (t : Option (Transport (Dial χ σ ε) ρ)) (rl wl : Option (Limiter σ ε))
    (dial : Dial χ σ ε) (ctx : χ) (network addr : String) (s : σ) (E : ε)
    (hbase : (match t with
      | none => DefaultTransport
      | some t => t).DialContext = some dial)
    (hfail : (dial ctx network addr s).err = some E) :
    ((NewTransport DefaultTransport t rl wl).dial ctx network addr s).outcome
        = .returned none (some E) ∧
      ((NewTransport DefaultTransport t rl wl).dial ctx network addr s).trace
        = [.dial network addr (some E)] ∧
      ((NewTransport DefaultTransport t rl wl).dial ctx network addr s).state
        = (dial ctx network addr s).state ∧
      charges ((NewTransport DefaultTransport t rl wl).dial ctx network addr s).trace = [] ∧
      quotaQueries ((NewTransport DefaultTransport t rl wl).dial ctx network addr s).trace
        = [] := by
  cases t with
  | none =>
    simp only at hbase
    simp [NewTransport, Transport.dial, hbase, hfail, charges, quotaQueries]
  | some t0 =>
    simp only at hbase
    simp [NewTransport, Transport.dial, hbase, hfail, charges, quotaQueries]

end

/-- Witness for C10: TestNewTransportDialFail, with limiters present. -/
theorem C10_dial_error_is_returned_witness :
    ((NewTransport ⟨some (stubDial (stubConn Unit)), ()⟩
        (some ⟨some (failDial ()), ()⟩) (some (stubLimiter Unit 1024))
        (some (stubLimiter Unit 1024))).dial () "" "" 0).outcome
      = .returned none (some ()) :=
  (C10_dial_error_is_returned ⟨some (stubDial (stubConn Unit)), ()⟩
    (some ⟨some (failDial ()), ()⟩) (some (stubLimiter Unit 1024))
    (some (stubLimiter Unit 1024)) (failDial ()) () "" "" 0 () rfl rfl).1

section
variable {χ σ ε ρ : Type}

/-- Claim C11. If the base dial step (of the supplied transport, or of the default transport
when none is supplied) succeeds with connection `c`, the dial step of the transport built
by `NewTransport` returns, with no error, a `Conn` whose wrapped connection is `c`, whose
`ReadLimiter` is `rl` and whose `WriteLimiter` is `wl` (each possibly nil); the only call
made is the base dial. -/
theorem C11_dial_success_wraps_connection (DefaultTransport : Transport (Dial χ σ ε) ρ)
    (t : Option (Transport (Dial χ σ ε) ρ)) (rl wl : Option (Limiter σ ε))
    (dial : Dial χ σ ε) (ctx : χ) (network addr : String) (s : σ)
    (c : Option (NetConn σ ε))
    (hbase : (match t with
      | none => DefaultTransport
      | some t => t).DialContext = some dial)
    (hok : (dial ctx network addr s).err = none)
    (hconn : (dial ctx network addr s).conn = c) :
    ((NewTransport DefaultTransport t rl wl).dial ctx network addr s).outcome
        = .returned (some { netConn := c, ReadLimiter := rl, WriteLimiter := wl }) none ∧
      ((NewTransport DefaultTransport t rl wl).dial ctx network addr s).trace
        = [.dial network addr none] ∧
      ((NewTransport DefaultTransport t rl wl).dial ctx network addr s).state
        = (dial ctx network addr s).state := by
  cases t with
  | none =>
    simp only at hbase
    simp [NewTransport, Transport.dial, hbase, hok, hconn]
  | some t0 =>
    simp only at hbase
    simp [NewTransport, Transport.dial, hbase, hok, hconn]

/-- Claim C16 (the code on a transport without a dial hook). If the `DialContext` field of
the base transport is nil, the dial step of the transport built by `NewTransport` calls that
nil function value and panics; it performs no dial. -/
theorem C16_nil_dial_hook_panics (DefaultTransport : Transport (Dial χ σ ε) ρ)
    (t : Option (Transport (Dial χ σ ε) ρ)) (rl wl : Option (Limiter σ ε))
    (ctx : χ) (network addr : String) (s : σ)
    (hbase : (match t with
      | none => DefaultTransport
      | some t => t).DialContext = none) :
    ((NewTransport DefaultTransport t rl wl).dial ctx network addr s).outcome
        = .panicked .nilDeref ∧
      ((NewTransport DefaultTransport t rl wl).dial ctx network addr s).trace = [] := by
  cases t with
  | none =>
    simp only at hbase
    simp [NewTransport, Transport.dial, hbase]
  | some t0 =>
    simp only at hbase
    simp [NewTransport, Transport.dial, hbase]

end

/-- Witness for C11: TestNewTransport, where the base dial returns a connection and both
limiters have quota 1024; and a nil base with the default transport and no limiters. -/
theorem C11_dial_success_wraps_connection_witness :
    ((NewTransport ⟨some (failDial ()), ()⟩
        (some ⟨some (stubDial (stubConn Unit)), ()⟩) (some (stubLimiter Unit 1024))
        (some (stubLimiter Unit 1024))).dial () "" "" 0).outcome
      = .returned (some (⟨some (stubConn Unit), some (stubLimiter Unit 1024),
          some (stubLimiter Unit 1024)⟩ : Conn Nat Unit)) none ∧
    ((NewTransport ⟨some (stubDial (stubConn Unit)), ()⟩ none none none).dial
        () "tcp" "example.com:80" 0).outcome
      = .returned (some (⟨some (stubConn Unit), none, none⟩ : Conn Nat Unit)) none :=
  ⟨(C11_dial_success_wraps_connection ⟨some (failDial ()), ()⟩
      (some ⟨some (stubDial (stubConn Unit)), ()⟩) (some (stubLimiter Unit 1024))
      (some (stubLimiter Unit 1024)) (stubDial (stubConn Unit)) () "" "" 0
      (some (stubConn Unit)) rfl rfl rfl).1,
   (C11_dial_success_wraps_connection ⟨some (stubDial (stubConn Unit)), ()⟩
      none none none (stubDial (stubConn Unit)) () "tcp" "example.com:80" 0
      (some (stubConn Unit)) rfl rfl rfl).1⟩

/-- Witness for C16: the transport `&http.Transport{}`, whose `DialContext` is nil. -/
theorem C16_nil_dial_hook_panics_witness :
    ((NewTransport ⟨some (stubDial (stubConn Unit)), ()⟩
        (some ⟨none, ()⟩) (some (stubLimiter Unit 1024))
        (some (stubLimiter Unit 1024))).dial () "tcp" "example.com:80" 0).outcome
      = .panicked .nilDeref :=
  (C16_nil_dial_hook_panics ⟨some (stubDial (stubConn Unit)), ()⟩
    (some ⟨none, ()⟩) (some (stubLimiter Unit 1024)) (some (stubLimiter Unit 1024))
    () "tcp" "example.com:80" 0 rfl).1

section
variable {σ ε : Type}

/-- Claim C19. On a zero-length buffer, with the limiter of the direction present and
whatever its quota, `Conn.Read` and `Conn.Write` return `(0, nil)` after the quota query
alone: no call on the wrapped connection (which may even be nil) and no charge. With the
limiter absent, the zero-length buffer is forwarded once to the wrapped connection and its
result is returned. -/
theorem C19_empty_buffer (nc : Option (NetConn σ ε)) (c : NetConn σ ε)
    (rl wl : Limiter σ ε) (orl owl : Option (Limiter σ ε)) (fuel : Nat) (s : σ) :
    ((Conn.Read ⟨nc, some rl, owl⟩ fuel [] s).outcome = .returned 0 none ∧
      (Conn.Read ⟨nc, some rl, owl⟩ fuel [] s).trace = [.limit .read (rl.Limit s).1] ∧
      xferCounts (Conn.Read ⟨nc, some rl, owl⟩ fuel [] s).trace = [] ∧
      charges (Conn.Read ⟨nc, some rl, owl⟩ fuel [] s).trace = []) ∧
    ((Conn.Write ⟨nc, orl, some wl⟩ fuel [] s).outcome = .returned 0 none ∧
      (Conn.Write ⟨nc, orl, some wl⟩ fuel [] s).trace = [.limit .write (wl.Limit s).1] ∧
      xferCounts (Conn.Write ⟨nc, orl, some wl⟩ fuel [] s).trace = [] ∧
      charges (Conn.Write ⟨nc, orl, some wl⟩ fuel [] s).trace = []) ∧
    ((Conn.Read ⟨some c, none, owl⟩ fuel [] s).outcome
        = .returned (c.Read s []).n (c.Read s []).err ∧
      (Conn.Read ⟨some c, none, owl⟩ fuel [] s).trace
        = [.xfer .read 0 0 [] (c.Read s []).n (c.Read s []).err]) ∧
    ((Conn.Write ⟨some c, orl, none⟩ fuel [] s).outcome
        = .returned (c.Write s []).n (c.Write s []).err ∧
      (Conn.Write ⟨some c, orl, none⟩ fuel [] s).trace
        = [.xfer .write 0 0 [] (c.Write s []).n (c.Write s []).err]) := by
  cases fuel <;>
    simp [Conn.Read, Conn.Write, readLoop, writeLoop, xferCounts, charges]

end

section
variable {σ ε : Type}

theorem readLoop_nil (a b a1 b1 : Option (Limiter σ ε)) (rl : Limiter σ ε) (nb limit : Int)
    (fuel : Nat) (i n : Int) (buf : List Byte) (s : σ) :
    readLoop ⟨none, a, b⟩ rl nb limit fuel i n buf s
        = readLoop ⟨none, a1, b1⟩ rl nb limit fuel i n buf s ∧
      (readLoop ⟨none, a, b⟩ rl nb limit fuel i n buf s).trace = [] := by
  cases fuel <;> simp [readLoop] <;> split_ifs <;> simp

theorem writeLoop_nil (a b a1 b1 : Option (Limiter σ ε)) (wl : Limiter σ ε) (p : List Byte)
    (np limit : Int) (fuel : Nat) (i n : Int) (s : σ) :
    writeLoop ⟨none, a, b⟩ wl p np limit fuel i n s
        = writeLoop ⟨none, a1, b1⟩ wl p np limit fuel i n s ∧
      (writeLoop ⟨none, a, b⟩ wl p np limit fuel i n s).trace = [] := by
  cases fuel <;> simp [writeLoop] <;> split_ifs <;> simp

theorem chunkLoop_dir (d : Dir) (xf : σ → List Byte → Int → Int → Xfer σ ε)
    (wait : σ → Int → Option ε × σ) (nb limit : Int) (fuel : Nat)
    (i n : Int) (b : List Byte) (s : σ) :
    ∀ ev ∈ (chunkLoop d xf wait nb limit fuel i n b s).trace, ev.dir = some d := by
  intro ev hev
  obtain ⟨pre, post, h⟩ := List.append_of_mem hev
  rcases (chunkLoop_events d xf wait nb limit fuel i n b s pre ev post h).2.2.2.2 with
    ⟨lo, hi, p, k, e, rfl⟩ | ⟨m, e, rfl⟩ <;> rfl

/-- Claim C14. `Conn.Read` does not depend on the `WriteLimiter` (present or nil) nor on the
`Write` method of the wrapped connection: the whole run (result, buffer, calls, final state)
is the same, and every call it makes is a read of the wrapped connection or a call on the
read limiter. Symmetrically `Conn.Write` does not depend on the `ReadLimiter` nor on the
`Read` method, and makes only write calls and calls on the write limiter. -/
theorem C14_directions_independent (nc : Option (NetConn σ ε))
    (rd rd1 rd2 : σ → List Byte → ReadResult σ ε)
    (wr wr1 wr2 : σ → List Byte → WriteResult σ ε)
    (orl owl orl1 owl1 : Option (Limiter σ ε)) (fuel : Nat) (b : List Byte) (s : σ) :
    (Conn.Read ⟨nc, orl, owl⟩ fuel b s = Conn.Read ⟨nc, orl, owl1⟩ fuel b s ∧
      Conn.Read ⟨some ⟨rd, wr1⟩, orl, owl⟩ fuel b s
        = Conn.Read ⟨some ⟨rd, wr2⟩, orl, owl1⟩ fuel b s ∧
      ∀ ev ∈ (Conn.Read ⟨nc, orl, owl⟩ fuel b s).trace, ev.dir = some .read) ∧
    (Conn.Write ⟨nc, orl, owl⟩ fuel b s = Conn.Write ⟨nc, orl1, owl⟩ fuel b s ∧
      Conn.Write ⟨some ⟨rd1, wr⟩, orl, owl⟩ fuel b s
        = Conn.Write ⟨some ⟨rd2, wr⟩, orl1, owl⟩ fuel b s ∧
      ∀ ev ∈ (Conn.Write ⟨nc, orl, owl⟩ fuel b s).trace, ev.dir = some .write) := by
  refine ⟨⟨?_, ?_, ?_⟩, ?_, ?_, ?_⟩
  · cases orl with
    | none => rfl
    | some rl =>
      cases nc with
      | none => simp only [Conn.Read]; rw [(readLoop_nil (some rl) owl (some rl) owl1 rl _ _ _ _ _ _ _).1]
      | some c => rw [Conn.Read_eq, Conn.Read_eq]
  · cases orl with
    | none => rfl
    | some rl => rw [Conn.Read_eq, Conn.Read_eq]; rfl
  · intro ev hev
    cases orl with
    | none =>
      cases nc with
      | none => simp [Conn.Read] at hev
      | some c => simp [Conn.Read] at hev; subst hev; rfl
    | some rl =>
      cases nc with
      | none =>
        simp only [Conn.Read, Run.after_trace, (readLoop_nil _ _ none none rl _ _ _ _ _ _ _).2,
          List.append_nil, List.mem_singleton] at hev
        subst hev; rfl
      | some c =>
        rw [Conn.Read_eq] at hev
        simp only [Run.after_trace, List.singleton_append, List.mem_cons] at hev
        rcases hev with rfl | hev
        · rfl
        · exact chunkLoop_dir _ _ _ _ _ _ _ _ _ _ ev hev
  · cases owl with
    | none => rfl
    | some wl =>
      cases nc with
      | none => simp only [Conn.Write]; rw [(writeLoop_nil orl (some wl) orl1 (some wl) wl _ _ _ _ _ _ _).1]
      | some c => rw [Conn.Write_eq, Conn.Write_eq]
  · cases owl with
    | none => rfl
    | some wl => rw [Conn.Write_eq, Conn.Write_eq]; rfl
  · intro ev hev
    cases owl with
    | none =>
      cases nc with
      | none => simp [Conn.Write] at hev
      | some c => simp [Conn.Write] at hev; subst hev; rfl
    | some wl =>
      cases nc with
      | none =>
        simp only [Conn.Write, Run.after_trace,
          (writeLoop_nil _ _ none none wl _ _ _ _ _ _ _).2,
          List.append_nil, List.mem_singleton] at hev
        subst hev; rfl
      | some c =>
        rw [Conn.Write_eq] at hev
        simp only [Run.after_trace, List.singleton_append, List.mem_cons] at hev
        rcases hev with rfl | hev
        · rfl
        · exact chunkLoop_dir _ _ _ _ _ _ _ _ _ _ ev hev

end

section
variable {σ ε : Type}

theorem chunkLoop_no_query (d : Dir) (xf : σ → List Byte → Int → Int → Xfer σ ε)
    (wait : σ → Int → Option ε × σ) (nb limit : Int) (fuel : Nat)
    (i n : Int) (b : List Byte) (s : σ) :
    quotaQueries (chunkLoop d xf wait nb limit fuel i n b s).trace = [] := by
  refine chunkLoop_cases d xf wait nb limit
    (fun _ _ _ _ _ r => quotaQueries r.trace = []) ?_ ?_ ?_ ?_ ?_ ?_ fuel i n b s
  · intros; rfl
  · intros; rfl
  · intros; rfl
  · intros; rfl
  · intros; rfl
  · intro _ _ _ _ _ _ _ _ _ _ ih
    simpa [quotaQueries] using ih

/-- One throttled call: the quota is queried once, first, and fixes the chunk. -/
theorem throttled_query (d : Dir) (xf : σ → List Byte → Int → Int → Xfer σ ε)
    (wait : σ → Int → Option ε × σ) (nb q : Int) (fuel : Nat) (b : List Byte) (s : σ) :
    (∃ rest, ((chunkLoop d xf wait nb (if nb < q then nb else q) fuel 0 0 b s).after
        [.limit d q]).trace = .limit d q :: rest ∧ quotaQueries rest = []) ∧
    ∀ pre post dd lo hi p k e,
      ((chunkLoop d xf wait nb (if nb < q then nb else q) fuel 0 0 b s).after
        [.limit d q]).trace = pre ++ .xfer dd lo hi p k e :: post →
      lo = (xferCounts pre).length * min nb q ∧ hi = min (lo + min nb q) nb := by
  refine ⟨⟨_, rfl, chunkLoop_no_query _ _ _ _ _ _ _ _ _ _⟩, ?_⟩
  intro pre post dd lo hi p k e h
  rw [limit_eq_min] at h
  obtain ⟨a1, a2, -⟩ := throttled_xfer_at _ _ _ _ _ _ _ _ _ _ _ _ _ _ _ _ _ h
  exact ⟨a1, a2⟩

/-- Claim C13. A throttled `Conn.Read` or `Conn.Write` queries the quota of its limiter
exactly once, as its first call, and slices by the minimum of the buffer length and that
answer. The call takes nothing but the connection, the buffer and the state of the world
as input, so a second call, made in the state `s2` the first one left, queries again and
slices its buffer of length `S2` by `min S2 L2`, with `L2` the quota reported in `s2`,
whatever the quota reported to the first call was. -/
theorem C13_quota_queried_each_call (c : NetConn σ ε) (rl wl : Limiter σ ε)
    (orl owl : Option (Limiter σ ε)) (fuel1 fuel2 : Nat) (b1 b2 : List Byte) (s : σ) :
    (((∃ rest, (Conn.Read ⟨some c, some rl, owl⟩ fuel1 b1 s).trace
          = .limit .read (rl.Limit s).1 :: rest ∧ quotaQueries rest = []) ∧
        ∀ pre post dd lo hi p k e,
          (Conn.Read ⟨some c, some rl, owl⟩ fuel1 b1 s).trace
            = pre ++ .xfer dd lo hi p k e :: post →
          lo = (xferCounts pre).length * min (b1.length : Int) (rl.Limit s).1 ∧
            hi = min (lo + min (b1.length : Int) (rl.Limit s).1) b1.length) ∧
      ((∃ rest, (Conn.Read ⟨some c, some rl, owl⟩ fuel2 b2
            (Conn.Read ⟨some c, some rl, owl⟩ fuel1 b1 s).state).trace
          = .limit .read (rl.Limit (Conn.Read ⟨some c, some rl, owl⟩ fuel1 b1 s).state).1
            :: rest ∧ quotaQueries rest = []) ∧
        ∀ pre post dd lo hi p k e,
          (Conn.Read ⟨some c, some rl, owl⟩ fuel2 b2
            (Conn.Read ⟨some c, some rl, owl⟩ fuel1 b1 s).state).trace
            = pre ++ .xfer dd lo hi p k e :: post →
          lo = (xferCounts pre).length * min (b2.length : Int)
              (rl.Limit (Conn.Read ⟨some c, some rl, owl⟩ fuel1 b1 s).state).1 ∧
            hi = min (lo + min (b2.length : Int)
              (rl.Limit (Conn.Read ⟨some c, some rl, owl⟩ fuel1 b1 s).state).1) b2.length)) ∧
    (((∃ rest, (Conn.Write ⟨some c, orl, some wl⟩ fuel1 b1 s).trace
          = .limit .write (wl.Limit s).1 :: rest ∧ quotaQueries rest = []) ∧
        ∀ pre post dd lo hi p k e,
          (Conn.Write ⟨some c, orl, some wl⟩ fuel1 b1 s).trace
            = pre ++ .xfer dd lo hi p k e :: post →
          lo = (xferCounts pre).length * min (b1.length : Int) (wl.Limit s).1 ∧
            hi = min (lo + min (b1.length : Int) (wl.Limit s).1) b1.length) ∧
      ((∃ rest, (Conn.Write ⟨some c, orl, some wl⟩ fuel2 b2
            (Conn.Write ⟨some c, orl, some wl⟩ fuel1 b1 s).state).trace
          = .limit .write (wl.Limit (Conn.Write ⟨some c, orl, some wl⟩ fuel1 b1 s).state).1
            :: rest ∧ quotaQueries rest = []) ∧
        ∀ pre post dd lo hi p k e,
          (Conn.Write ⟨some c, orl, some wl⟩ fuel2 b2
            (Conn.Write ⟨some c, orl, some wl⟩ fuel1 b1 s).state).trace
            = pre ++ .xfer dd lo hi p k e :: post →
          lo = (xferCounts pre).length * min (b2.length : Int)
              (wl.Limit (Conn.Write ⟨some c, orl, some wl⟩ fuel1 b1 s).state).1 ∧
            hi = min (lo + min (b2.length : Int)
              (wl.Limit (Conn.Write ⟨some c, orl, some wl⟩ fuel1 b1 s).state).1)
                b2.length)) := by
  have hr : ∀ (fuel : Nat) (b : List Byte) (s : σ),
      (∃ rest, (Conn.Read ⟨some c, some rl, owl⟩ fuel b s).trace
          = .limit .read (rl.Limit s).1 :: rest ∧ quotaQueries rest = []) ∧
        ∀ pre post dd lo hi p k e,
          (Conn.Read ⟨some c, some rl, owl⟩ fuel b s).trace
            = pre ++ .xfer dd lo hi p k e :: post →
          lo = (xferCounts pre).length * min (b.length : Int) (rl.Limit s).1 ∧
            hi = min (lo + min (b.length : Int) (rl.Limit s).1) b.length := by
    intro fuel b s
    rw [Conn.Read_eq]
    exact throttled_query _ _ _ _ _ _ _ _
  have hw : ∀ (fuel : Nat) (b : List Byte) (s : σ),
      (∃ rest, (Conn.Write ⟨some c, orl, some wl⟩ fuel b s).trace
          = .limit .write (wl.Limit s).1 :: rest ∧ quotaQueries rest = []) ∧
        ∀ pre post dd lo hi p k e,
          (Conn.Write ⟨some c, orl, some wl⟩ fuel b s).trace
            = pre ++ .xfer dd lo hi p k e :: post →
          lo = (xferCounts pre).length * min (b.length : Int) (wl.Limit s).1 ∧
            hi = min (lo + min (b.length : Int) (wl.Limit s).1) b.length := by
    intro fuel b s
    rw [Conn.Write_eq]
    exact throttled_query _ _ _ _ _ _ _ _
  exact ⟨⟨hr _ _ _, hr _ _ _⟩, hw _ _ _, hw _ _ _⟩

end

/-- Witness for C13: two reads of 5 bytes on one connection whose limiter reports quota 3 to
the first call and quota 2 to the second. The first is charged `[3, 2]`, the second
`[2, 2, 1]`; the last transfer of the second call is on the slice `[4:5]`. -/
theorem C13_quota_queried_each_call_witness :
    charges (Conn.Read ⟨some (stubConn Unit), some (varyingLimiter Unit), none⟩ 5
      (zeros 5) 0).trace = [3, 2] ∧
    charges (Conn.Read ⟨some (stubConn Unit), some (varyingLimiter Unit), none⟩ 5 (zeros 5)
      (Conn.Read ⟨some (stubConn Unit), some (varyingLimiter Unit), none⟩ 5
        (zeros 5) 0).state).trace = [2, 2, 1] ∧
    ((4 : Int) = (xferCounts [Event.limit Dir.read 2,
        Event.xfer Dir.read 0 2 (zeros 2) 2 (none : Option Unit),
        Event.waitN Dir.read 2 none,
        Event.xfer Dir.read 2 4 (zeros 2) 2 none,
        Event.waitN Dir.read 2 none]).length
        * min ((zeros 5).length : Int) ((varyingLimiter Unit).Limit
          (Conn.Read ⟨some (stubConn Unit), some (varyingLimiter Unit), none⟩ 5
            (zeros 5) 0).state).1 ∧
      (5 : Int) = min (4 + min ((zeros 5).length : Int) ((varyingLimiter Unit).Limit
          (Conn.Read ⟨some (stubConn Unit), some (varyingLimiter Unit), none⟩ 5
            (zeros 5) 0).state).1) (zeros 5).length) :=
  ⟨by decide, by decide,
   (C13_quota_queried_each_call (stubConn Unit) (varyingLimiter Unit) (varyingLimiter Unit)
      none none 5 5 (zeros 5) (zeros 5) 0).1.2.2
      [.limit .read 2, .xfer .read 0 2 (zeros 2) 2 none, .waitN .read 2 none,
        .xfer .read 2 4 (zeros 2) 2 none, .waitN .read 2 none]
      [.waitN .read 1 none] .read 4 5 (zeros 1) 1 none (by decide)⟩

section
variable {σ ε : Type}

theorem slice_length_le (b : List Byte) {lo hi : Int} (h : lo ≤ hi) :
    ((slice b lo hi).length : Int) ≤ hi - lo := by
  simp [slice]; omega

/-- The slice handed over by a transfer of the loop is no longer than its bounds say, and a
transfer that never reports more than its slice holds reports at most that length. -/
theorem chunkLoop_xfer_len (d : Dir) (xf : σ → List Byte → Int → Int → Xfer σ ε)
    (wait : σ → Int → Option ε × σ) (nb limit : Int) (fuel : Nat)
    (i n : Int) (b : List Byte) (s : σ) :
    ∀ pre post dd lo hi p k e,
      (chunkLoop d xf wait nb limit fuel i n b s).trace = pre ++ .xfer dd lo hi p k e :: post →
      (p.length : Int) ≤ hi - lo ∧
        ((∀ s b lo hi, (xf s b lo hi).n ≤ ((slice b lo hi).length : Int)) →
          k ≤ (p.length : Int)) := by
  refine chunkLoop_cases d xf wait nb limit
    (fun _ _ _ _ _ r => ∀ pre post dd lo hi p k e,
      r.trace = pre ++ .xfer dd lo hi p k e :: post →
      (p.length : Int) ≤ hi - lo ∧
        ((∀ s b lo hi, (xf s b lo hi).n ≤ ((slice b lo hi).length : Int)) →
          k ≤ (p.length : Int)))
    ?_ ?_ ?_ ?_ ?_ ?_ fuel i n b s
  · intro _ _ _ _ _ _ pre post dd lo hi p k e h; simp at h
  · intro _ _ _ _ _ pre post dd lo hi p k e h; simp at h
  · intro _ _ _ _ _ _ _ pre post dd lo hi p k e h; simp at h
  · intro _ i n b s err hlt h0 h1 _ pre post dd lo hi p k e h
    obtain ⟨rfl, hx, rfl⟩ := singleton_eq_append_cons h
    simp only [Event.xfer.injEq] at hx
    obtain ⟨-, rfl, rfl, rfl, rfl, -⟩ := hx
    exact ⟨slice_length_le b h1, fun hc => hc _ _ _ _⟩
  · intro _ i n b s err hlt h0 h1 _ _ pre post dd lo hi p k e h
    rcases cons_cons_eq_append_cons [] h with ⟨rfl, hx, rfl⟩ | ⟨rfl, hx, rfl⟩ | ⟨pre1, _, h2⟩
    · simp only [Event.xfer.injEq] at hx
      obtain ⟨-, rfl, rfl, rfl, rfl, -⟩ := hx
      exact ⟨slice_length_le b h1, fun hc => hc _ _ _ _⟩
    · simp at hx
    · simp at h2
  · intro _ i n b s hlt h0 h1 _ _ ih pre post dd lo hi p k e h
    simp only [Run.after_trace, List.cons_append, List.nil_append] at h
    rcases cons_cons_eq_append_cons _ h with ⟨rfl, hx, rfl⟩ | ⟨rfl, hx, rfl⟩ | ⟨pre1, rfl, h2⟩
    · simp only [Event.xfer.injEq] at hx
      obtain ⟨-, rfl, rfl, rfl, rfl, -⟩ := hx
      exact ⟨slice_length_le b h1, fun hc => hc _ _ _ _⟩
    · simp at hx
    · exact ih pre1 post dd lo hi p k e h2

/-- Sizes of the slices and of the charges of a throttled call. -/
theorem throttled_sizes (d : Dir) (xf : σ → List Byte → Int → Int → Xfer σ ε)
    (wait : σ → Int → Option ε × σ) (nb q : Int) (fuel : Nat) (b : List Byte) (s : σ) :
    (∀ pre post dd lo hi p k e,
      ((chunkLoop d xf wait nb (if nb < q then nb else q) fuel 0 0 b s).after
        [.limit d q]).trace = pre ++ .xfer dd lo hi p k e :: post →
      0 ≤ lo ∧ lo ≤ hi ∧ hi ≤ nb ∧ hi - lo ≤ min nb q ∧ (p.length : Int) ≤ hi - lo) ∧
    ((∀ s b lo hi, (xf s b lo hi).n ≤ ((slice b lo hi).length : Int)) →
      ∀ pre post dd m e,
        ((chunkLoop d xf wait nb (if nb < q then nb else q) fuel 0 0 b s).after
          [.limit d q]).trace = pre ++ .waitN dd m e :: post →
        m ≤ min nb q ∧ m ≤ q) := by
  rw [limit_eq_min]
  have key : ∀ pre post dd lo hi p k e,
      ((chunkLoop d xf wait nb (min nb q) fuel 0 0 b s).after
        [.limit d q]).trace = pre ++ .xfer dd lo hi p k e :: post →
      0 ≤ lo ∧ lo ≤ hi ∧ hi ≤ nb ∧ hi - lo ≤ min nb q ∧ (p.length : Int) ≤ hi - lo ∧
        ((∀ s b lo hi, (xf s b lo hi).n ≤ ((slice b lo hi).length : Int)) →
          k ≤ (p.length : Int)) := by
    intro pre post dd lo hi p k e h
    obtain ⟨-, a2, a3, a4, -, -⟩ := throttled_xfer_at _ _ _ _ _ _ _ _ _ _ _ _ _ _ _ _ _ h
    simp only [Run.after_trace, List.singleton_append] at h
    cases pre with
    | nil => simp at h
    | cons y pre =>
      simp only [List.cons_append, List.cons.injEq] at h
      obtain ⟨b1, b2⟩ := chunkLoop_xfer_len _ _ _ _ _ _ _ _ _ _ _ _ _ _ _ _ _ _ h.2
      refine ⟨a3, a4, ?_, ?_, b1, b2⟩
      · rw [a2]; exact min_le_right _ _
      · have := min_le_left (lo + min nb q) nb
        omega
  refine ⟨fun pre post dd lo hi p k e h => ?_, fun hc pre post dd m e h => ?_⟩
  · obtain ⟨a1, a2, a3, a4, a5, -⟩ := key _ _ _ _ _ _ _ _ h
    exact ⟨a1, a2, a3, a4, a5⟩
  · obtain ⟨-, pre1, lo, hi, p, rfl⟩ :=
      (throttled_events _ _ _ _ _ _ _ _ _ _ _ _ h).1 dd m e rfl
    have h2 : ((chunkLoop d xf wait nb (min nb q) fuel 0 0 b s).after [.limit d q]).trace
        = pre1 ++ .xfer d lo hi p m none :: (.waitN dd m e :: post) := by
      rw [h]; simp
    obtain ⟨-, -, -, a4, a5, a6⟩ := key _ _ _ _ _ _ _ _ h2
    have := a6 hc
    have := min_le_right nb q
    omega

/-- Claim C12. In a throttled `Conn.Read` or `Conn.Write` on a buffer of length `S` with
quota `L`, every slice handed to the wrapped connection lies inside the buffer and has
length at most `min S L`; and if the wrapped connection never returns a count above the
length of the slice it was given, every amount passed to `WaitN` is at most `min S L`,
hence at most `L`. -/
theorem C12_slices_and_charges_bounded (c : NetConn σ ε) (rl wl : Limiter σ ε)
    (orl owl : Option (Limiter σ ε)) (fuel : Nat) (b : List Byte) (s : σ) :
    ((∀ pre post dd lo hi p k e,
        (Conn.Read ⟨some c, some rl, owl⟩ fuel b s).trace
          = pre ++ .xfer dd lo hi p k e :: post →
        (0 : Int) ≤ lo ∧ lo ≤ hi ∧ hi ≤ (b.length : Int) ∧
          hi - lo ≤ min (b.length : Int) (rl.Limit s).1 ∧ (p.length : Int) ≤ hi - lo) ∧
      ((∀ s p, (c.Read s p).n ≤ (p.length : Int)) →
        ∀ pre post dd m e,
          (Conn.Read ⟨some c, some rl, owl⟩ fuel b s).trace
            = pre ++ .waitN dd m e :: post →
          m ≤ min (b.length : Int) (rl.Limit s).1 ∧ m ≤ (rl.Limit s).1)) ∧
    ((∀ pre post dd lo hi p k e,
        (Conn.Write ⟨some c, orl, some wl⟩ fuel b s).trace
          = pre ++ .xfer dd lo hi p k e :: post →
        (0 : Int) ≤ lo ∧ lo ≤ hi ∧ hi ≤ (b.length : Int) ∧
          hi - lo ≤ min (b.length : Int) (wl.Limit s).1 ∧ (p.length : Int) ≤ hi - lo) ∧
      ((∀ s p, (c.Write s p).n ≤ (p.length : Int)) →
        ∀ pre post dd m e,
          (Conn.Write ⟨some c, orl, some wl⟩ fuel b s).trace
            = pre ++ .waitN dd m e :: post →
          m ≤ min (b.length : Int) (wl.Limit s).1 ∧ m ≤ (wl.Limit s).1)) := by
  rw [Conn.Read_eq, Conn.Write_eq]
  obtain ⟨r1, r2⟩ := throttled_sizes .read (readXfer c) rl.WaitN b.length (rl.Limit s).1
    fuel b (rl.Limit s).2
  obtain ⟨w1, w2⟩ := throttled_sizes .write (writeXfer c) wl.WaitN b.length (wl.Limit s).1
    fuel b (wl.Limit s).2
  exact ⟨⟨r1, fun hc => r2 (fun _ _ _ _ => hc _ _)⟩, w1, fun hc => w2 (fun _ _ _ _ => hc _ _)⟩

end

/-- Witness for C12: a 5-byte read with quota 2 over a connection whose first transfer is
short; the last charge, of 1 byte, is within the quota. -/
theorem C12_slices_and_charges_bounded_witness :
    ((0 : Int) ≤ 4 ∧ (4 : Int) ≤ 5 ∧ (5 : Int) ≤ (zeros 5).length ∧
      (5 : Int) - 4 ≤ min ((zeros 5).length : Int) ((stubLimiter Unit 2).Limit 0).1 ∧
      (((zeros 1).length : Int) ≤ 5 - 4)) ∧
    ((1 : Int) ≤ min ((zeros 5).length : Int) ((stubLimiter Unit 2).Limit 0).1 ∧
      (1 : Int) ≤ ((stubLimiter Unit 2).Limit 0).1) :=
  ⟨(C12_slices_and_charges_bounded (shortConn Unit) (stubLimiter Unit 2)
      (stubLimiter Unit 2) none none 5 (zeros 5) 0).1.1
      [.limit .read 2, .xfer .read 0 2 (zeros 2) 1 none, .waitN .read 1 none,
        .xfer .read 2 4 (zeros 2) 2 none, .waitN .read 2 none]
      [.waitN .read 1 none] .read 4 5 (zeros 1) 1 none (by decide),
   (C12_slices_and_charges_bounded (shortConn Unit) (stubLimiter Unit 2)
      (stubLimiter Unit 2) none none 5 (zeros 5) 0).1.2
      (fun s p => by
        simp only [shortConn]
        split_ifs <;> simp)
      [.limit .read 2, .xfer .read 0 2 (zeros 2) 1 none, .waitN .read 1 none,
        .xfer .read 2 4 (zeros 2) 2 none, .waitN .read 2 none, .xfer .read 4 5 (zeros 1) 1 none]
      [] .read 1 none (by decide)⟩

section
variable {σ ε : Type}

/-- Number of iterations of the loop: each one moves the loop variable `limit` further. -/
theorem chunkLoop_iterations (d : Dir) (xf : σ → List Byte → Int → Int → Xfer σ ε)
    (wait : σ → Int → Option ε × σ) (nb limit : Int) (_hl : 0 < limit) (fuel : Nat)
    (i n : Int) (b : List Byte) (s : σ) :
    ((xferCounts (chunkLoop d xf wait nb limit fuel i n b s).trace).length : Int) * limit
      ≤ max 0 (nb - i + limit - 1) := by
  refine chunkLoop_cases d xf wait nb limit
    (fun _ i _ _ _ r => ((xferCounts r.trace).length : Int) * limit
      ≤ max 0 (nb - i + limit - 1)) ?_ ?_ ?_ ?_ ?_ ?_ fuel i n b s
  · intros; simp [xferCounts]
  · intros; simp [xferCounts]
  · intros; simp [xferCounts]
  · intro _ i _ _ _ _ h _ _ _
    simp only [xferCounts, List.length_singleton, Nat.cast_one, one_mul]
    exact le_max_of_le_right (by omega)
  · intro _ i _ _ _ _ h _ _ _ _
    simp only [xferCounts, List.length_singleton, Nat.cast_one, one_mul]
    exact le_max_of_le_right (by omega)
  · intro _ i _ _ _ h _ _ _ _ ih
    have h1 : max 0 (nb - (i + limit) + limit - 1) = nb - i - 1 := by
      rw [max_eq_right (by omega)]; ring
    rw [h1] at ih
    refine le_max_of_le_right ?_
    simp only [Run.after_trace, List.cons_append, List.nil_append]
    simp only [xferCounts, List.length_cons, Nat.cast_add, Nat.cast_one, add_mul, one_mul]
    linarith

theorem ceil_min (S L : Nat) (hL : 0 < L) (hS : 0 < S) :
    (S + min S L - 1) / min S L = (S + L - 1) / L := by
  have hm : 0 < min S L := Nat.lt_min.mpr ⟨hS, hL⟩
  rw [← chunkSizes_length S hm, ← chunkSizes_length S hL, chunkSizes_min]

/-- A throttled call with quota `L ≥ 1` on `S` bytes: at most `⌈S / L⌉` iterations, and it
returns when given fuel for that many. -/
theorem throttled_terminates (d : Dir) (xf : σ → List Byte → Int → Int → Xfer σ ε)
    (wait : σ → Int → Option ε × σ) (L : Nat) (hL : 0 < L) (fuel : Nat)
    (b : List Byte) (s : σ) :
    (xferCounts ((chunkLoop d xf wait b.length (if (b.length : Int) < L then b.length else L)
        fuel 0 0 b s).after [.limit d L]).trace).length ≤ (b.length + L - 1) / L ∧
    ((b.length + L - 1) / L ≤ fuel →
      ∃ n err, ((chunkLoop d xf wait b.length (if (b.length : Int) < L then b.length else L)
        fuel 0 0 b s).after [.limit d L]).outcome = .returned n err) := by
  simp only [Run.after_outcome, Run.after_trace, List.singleton_append, xferCounts]
  by_cases h0 : b.length = 0
  · constructor
    · cases fuel <;> simp [chunkLoop, h0, xferCounts]
    · intro _
      exact ⟨0, none, by cases fuel <;> simp [chunkLoop, h0]⟩
  · have hpos : 0 < b.length := Nat.pos_of_ne_zero h0
    have hm : 0 < min b.length L := Nat.lt_min.mpr ⟨hpos, hL⟩
    have hlim : (if (b.length : Int) < L then (b.length : Int) else L)
        = ((min b.length L : Nat) : Int) := by
      split_ifs with h
      · have : b.length < L := by exact_mod_cast h
        rw [Nat.min_eq_left this.le]
      · have : ¬ b.length < L := by exact_mod_cast h
        rw [Nat.min_eq_right (by omega)]
    rw [hlim, ← ceil_min b.length L hL hpos]
    constructor
    · have h := chunkLoop_iterations d xf wait b.length ((min b.length L : Nat) : Int)
        (by exact_mod_cast hm) fuel 0 0 b s
      rw [max_eq_right (by omega)] at h
      apply (Nat.le_div_iff_mul_le hm).mpr
      have h2 : ((xferCounts (chunkLoop d xf wait b.length ((min b.length L : Nat) : Int)
          fuel 0 0 b s).trace).length : Int) * ((min b.length L : Nat) : Int)
          ≤ ((b.length + min b.length L - 1 : Nat) : Int) := by
        have e : ((b.length + min b.length L - 1 : Nat) : Int)
            = (b.length : Int) - 0 + ((min b.length L : Nat) : Int) - 1 := by omega
        rw [e]; exact h
      exact_mod_cast h2
    · intro hf
      refine chunkLoop_returns d xf wait _ _ (by exact_mod_cast hm) fuel 0 0 b s le_rfl ?_
      have h1 := le_ceil_mul b.length hm
      have h2 : (b.length + min b.length L - 1) / min b.length L * min b.length L
          ≤ fuel * min b.length L := Nat.mul_le_mul_right _ hf
      have h3 : b.length ≤ fuel * min b.length L := le_trans h1 h2
      have h4 : (b.length : Int) ≤ (fuel : Int) * ((min b.length L : Nat) : Int) := by
        exact_mod_cast h3
      simpa using h4

/-- Claim C15. Let the buffer have length `S` and the limiter report the integer quota
`L ≥ 1`. Whatever the wrapped connection and the limiter return, throttled `Conn.Read` and
`Conn.Write` run at most `⌈S / L⌉` loop iterations (one call on the wrapped connection
each), the iteration after `j` earlier ones being entered at offset `j * min S L` with
`min S L ≥ 1`, and with fuel for `⌈S / L⌉` iterations they return. -/
theorem C15_terminates_within_ceil (c : NetConn σ ε) (rl wl : Limiter σ ε)
    (orl owl : Option (Limiter σ ε)) (fuel : Nat) (b : List Byte) (s : σ) (L : Nat)
    (hL : 1 ≤ L) (hrq : (rl.Limit s).1 = L) (hwq : (wl.Limit s).1 = L) :
    ((xferCounts (Conn.Read ⟨some c, some rl, owl⟩ fuel b s).trace).length
        ≤ (b.length + L - 1) / L ∧
      (∀ pre post dd lo hi p k e,
        (Conn.Read ⟨some c, some rl, owl⟩ fuel b s).trace
          = pre ++ .xfer dd lo hi p k e :: post →
        lo = (xferCounts pre).length * min (b.length : Int) L ∧
          1 ≤ min (b.length : Int) L) ∧
      ((b.length + L - 1) / L ≤ fuel →
        ∃ n err, (Conn.Read ⟨some c, some rl, owl⟩ fuel b s).outcome = .returned n err)) ∧
    ((xferCounts (Conn.Write ⟨some c, orl, some wl⟩ fuel b s).trace).length
        ≤ (b.length + L - 1) / L ∧
      (∀ pre post dd lo hi p k e,
        (Conn.Write ⟨some c, orl, some wl⟩ fuel b s).trace
          = pre ++ .xfer dd lo hi p k e :: post →
        lo = (xferCounts pre).length * min (b.length : Int) L ∧
          1 ≤ min (b.length : Int) L) ∧
      ((b.length + L - 1) / L ≤ fuel →
        ∃ n err, (Conn.Write ⟨some c, orl, some wl⟩ fuel b s).outcome = .returned n err)) := by
  rw [Conn.Read_eq, Conn.Write_eq, hrq, hwq]
  have hq : (0 : Int) < L := by exact_mod_cast hL
  obtain ⟨r1, r2⟩ := throttled_terminates .read (readXfer c) rl.WaitN L hL fuel b
    (rl.Limit s).2
  obtain ⟨w1, w2⟩ := throttled_terminates .write (writeXfer c) wl.WaitN L hL fuel b
    (wl.Limit s).2
  refine ⟨⟨r1, ?_, r2⟩, w1, ?_, w2⟩
  · intro pre post dd lo hi p k e h
    obtain ⟨a1, a2, a3, -⟩ := (throttled_order .read (readXfer c) rl.WaitN b.length L hq
      fuel b (rl.Limit s).2).1 pre post dd lo hi p k e h
    refine ⟨a1, ?_⟩
    have := min_le_left (lo + min (b.length : Int) L) b.length
    omega
  · intro pre post dd lo hi p k e h
    obtain ⟨a1, a2, a3, -⟩ := (throttled_order .write (writeXfer c) wl.WaitN b.length L hq
      fuel b (wl.Limit s).2).1 pre post dd lo hi p k e h
    refine ⟨a1, ?_⟩
    have := min_le_left (lo + min (b.length : Int) L) b.length
    omega

end

set_option maxRecDepth 100000 in
/-- Witness for C15: 555 bytes with quota 100 over a connection whose first transfer is
short: at most 6 iterations, and the call returns with fuel 6. -/
theorem C15_terminates_within_ceil_witness :
    (xferCounts (Conn.Read ⟨some (shortConn Unit), some (stubLimiter Unit 100), none⟩ 6
        (zeros 555) 0).trace).length ≤ ((zeros 555).length + 100 - 1) / 100 ∧
    ∃ n err, (Conn.Write ⟨some (shortConn Unit), none, some (stubLimiter Unit 100)⟩ 6
        (zeros 555) 0).outcome = .returned n err :=
  ⟨(C15_terminates_within_ceil (shortConn Unit) (stubLimiter Unit 100)
      (stubLimiter Unit 100) none none 6 (zeros 555) 0 100 (by decide) rfl rfl).1.1,
   (C15_terminates_within_ceil (shortConn Unit) (stubLimiter Unit 100)
      (stubLimiter Unit 100) none none 6 (zeros 555) 0 100 (by decide) rfl rfl).2.2.2
      (by decide)⟩

section
variable {σ ε : Type}

/-- The loop over a transfer that keeps the write contract: it reports between 0 and the
length of its slice, and reports an error when it reports less than that length. -/
theorem chunkLoop_contract (d : Dir) (xf : σ → List Byte → Int → Int → Xfer σ ε)
    (wait : σ → Int → Option ε × σ) (nb limit : Int)
    (hx : ∀ s b lo hi, 0 ≤ lo → lo ≤ hi → hi ≤ (b.length : Int) →
      0 ≤ (xf s b lo hi).n ∧ (xf s b lo hi).n ≤ hi - lo ∧
      ((xf s b lo hi).n < hi - lo → (xf s b lo hi).err ≠ none) ∧
      (xf s b lo hi).buf.length = b.length)
    (fuel : Nat) (i n : Int) (b : List Byte) (s : σ) (hi : 0 ≤ i)
    (hb : (b.length : Int) = nb) (m : Int) (err : Option ε)
    (hr : (chunkLoop d xf wait nb limit fuel i n b s).outcome = .returned m err) :
    n ≤ m ∧ m ≤ n + max 0 (nb - i) ∧ (err = none → m = n + max 0 (nb - i)) := by
  revert hi hb m err
  refine chunkLoop_cases d xf wait nb limit
    (fun _ i n b _ r => 0 ≤ i → (b.length : Int) = nb → ∀ m err,
      r.outcome = .returned m err →
      n ≤ m ∧ m ≤ n + max 0 (nb - i) ∧ (err = none → m = n + max 0 (nb - i)))
    ?_ ?_ ?_ ?_ ?_ ?_ fuel i n b s
  · intro _ i n _ _ h _ _ m err hr
    simp only [Outcome.returned.injEq] at hr
    obtain ⟨rfl, rfl⟩ := hr
    rw [max_eq_left (by omega)]
    simp
  · intro _ _ _ _ _ _ _ m err hr; simp at hr
  · intro _ _ _ _ _ _ _ _ _ m err hr; simp at hr
  · intro _ i n b s e h h0 h1 _ _ hb m err hr
    simp only [Outcome.returned.injEq] at hr
    obtain ⟨rfl, rfl⟩ := hr
    obtain ⟨c1, c2, -, -⟩ := hx s b i (chunkEnd nb limit i) h0 h1 (hb ▸ chunkEnd_le nb limit i h)
    have := chunkEnd_le nb limit i h
    rw [max_eq_right (by omega)]
    refine ⟨by omega, by omega, fun hn => by cases hn⟩
  · intro _ i n b s e h h0 h1 herr _ _ hb m err hr
    simp only [Outcome.returned.injEq] at hr
    obtain ⟨rfl, rfl⟩ := hr
    obtain ⟨c1, c2, -, -⟩ := hx s b i (chunkEnd nb limit i) h0 h1 (hb ▸ chunkEnd_le nb limit i h)
    have := chunkEnd_le nb limit i h
    rw [max_eq_right (by omega)]
    refine ⟨by omega, by omega, fun hn => by cases hn⟩
  · intro _ i n b s h h0 h1 herr _ ih _ hb m err hr
    obtain ⟨c1, c2, c3, c4⟩ := hx s b i (chunkEnd nb limit i) h0 h1
      (hb ▸ chunkEnd_le nb limit i h)
    have hfull : (xf s b i (chunkEnd nb limit i)).n = chunkEnd nb limit i - i := by
      by_contra hne
      exact c3 (lt_of_le_of_ne c2 hne) herr
    have hlim : 0 ≤ limit := by
      unfold chunkEnd at h1; split_ifs at h1 <;> omega
    simp only [Run.after_outcome] at hr
    obtain ⟨a1, a2, a3⟩ := ih (by omega) (by rw [c4]; exact hb) m err hr
    rw [hfull] at a1 a2 a3
    rw [max_eq_right (by omega)]
    unfold chunkEnd at a1 a2 a3
    split_ifs at a1 a2 a3 with hgt
    · rw [max_eq_left (by omega)] at a2 a3
      exact ⟨by omega, by omega, fun hn => by have := a3 hn; omega⟩
    · rw [max_eq_right (by omega)] at a2 a3
      exact ⟨by omega, by omega, fun hn => by have := a3 hn; omega⟩

/-- A throttled call with a positive quota returns when the fuel covers the buffer. -/
theorem throttled_returns (d : Dir) (xf : σ → List Byte → Int → Int → Xfer σ ε)
    (wait : σ → Int → Option ε × σ) (q : Int) (hq : 0 < q) (fuel : Nat) (b : List Byte)
    (s : σ) (hf : b.length ≤ fuel) :
    ∃ n err, ((chunkLoop d xf wait b.length (if (b.length : Int) < q then b.length else q)
      fuel 0 0 b s).after [.limit d q]).outcome = .returned n err := by
  simp only [Run.after_outcome]
  by_cases hb : b.length = 0
  · exact ⟨0, none, by cases fuel <;> simp [chunkLoop, hb]⟩
  · have h1 : (1 : Int) ≤ b.length := by omega
    have h2 : (b.length : Int) ≤ fuel := by exact_mod_cast hf
    split_ifs with hlt
    · exact chunkLoop_returns _ _ _ _ _ (by omega) _ _ _ _ _ le_rfl (by nlinarith)
    · exact chunkLoop_returns _ _ _ _ _ hq _ _ _ _ _ le_rfl (by nlinarith)

/-- Claim C17. Let the wrapped connection keep the write contract: every `Write` reports a
count between 0 and the length of the slice it was given, and reports a non-nil error
whenever that count is below the length. Then throttled `Conn.Write` on `p` with quota
`L > 0` keeps it too: a returned count `n` satisfies `0 ≤ n ≤ len(p)`, a nil error comes
only with `n = len(p)`, so `n < len(p)` comes only with a non-nil error; and the call
returns when given enough fuel. -/
theorem C17_write_contract_kept (c : NetConn σ ε) (wl : Limiter σ ε)
    (orl : Option (Limiter σ ε)) (fuel : Nat) (p : List Byte) (s : σ)
    (hq : 0 < (wl.Limit s).1)
    (hwrite : ∀ s q, 0 ≤ (c.Write s q).n ∧ (c.Write s q).n ≤ (q.length : Int) ∧
      ((c.Write s q).n < (q.length : Int) → (c.Write s q).err ≠ none)) :
    (∀ n err, (Conn.Write ⟨some c, orl, some wl⟩ fuel p s).outcome = .returned n err →
      0 ≤ n ∧ n ≤ (p.length : Int) ∧ (err = none → n = (p.length : Int)) ∧
        (n < (p.length : Int) → err ≠ none)) ∧
    (p.length ≤ fuel →
      ∃ n err, (Conn.Write ⟨some c, orl, some wl⟩ fuel p s).outcome = .returned n err) := by
  refine ⟨?_, fun hf => ?_⟩
  swap
  · rw [Conn.Write_eq]
    exact throttled_returns .write (writeXfer c) wl.WaitN _ hq fuel p _ hf
  intro n err hr
  rw [Conn.Write_eq] at hr
  simp only [Run.after_outcome] at hr
  have hx : ∀ s b lo hi, 0 ≤ lo → lo ≤ hi → hi ≤ (b.length : Int) →
      0 ≤ (writeXfer c s b lo hi).n ∧ (writeXfer c s b lo hi).n ≤ hi - lo ∧
      ((writeXfer c s b lo hi).n < hi - lo → (writeXfer c s b lo hi).err ≠ none) ∧
      (writeXfer c s b lo hi).buf.length = b.length := by
    intro s b lo hi h0 h1 h2
    have hl := slice_length h0 h1 h2
    obtain ⟨w1, w2, w3⟩ := hwrite s (slice b lo hi)
    rw [hl] at w2 w3
    exact ⟨w1, w2, w3, rfl⟩
  obtain ⟨a1, a2, a3⟩ := chunkLoop_contract .write (writeXfer c) wl.WaitN p.length _ hx
    fuel 0 0 p _ le_rfl rfl n err hr
  rw [max_eq_right (by omega)] at a2 a3
  simp only [zero_add, sub_zero] at a2 a3
  refine ⟨a1, a2, a3, fun hlt hn => ?_⟩
  have := a3 hn
  omega

end

/-- Witness for C17: a connection that can take 3 bytes in all is written 5 bytes with
quota 2; the second slice is written short with an error, and the call returns 3 with that
error. A connection that takes everything returns 5 with no error. -/
theorem C17_write_contract_kept_witness :
    ((0 : Int) ≤ 3 ∧ (3 : Int) ≤ ((zeros 5).length : Int) ∧
      ((some () : Option Unit) = none → (3 : Int) = ((zeros 5).length : Int)) ∧
      ((3 : Int) < ((zeros 5).length : Int) → (some () : Option Unit) ≠ none)) ∧
    ∃ n err, (Conn.Write ⟨some (stubConn Unit), none, some (stubLimiter Unit 2)⟩ 5
      (zeros 5) 0).outcome = .returned n err :=
  ⟨(C17_write_contract_kept (cappedConn 3 ()) (stubLimiter Unit 2) none 5 (zeros 5) 0
      (by decide)
      (fun s q => by
        simp only [cappedConn]
        refine ⟨by omega, by omega, fun h => ?_⟩
        have h1 : min q.length (3 - s) < q.length := by exact_mod_cast h
        simp [h1])).1 3 (some ()) (by decide),
   (C17_write_contract_kept (stubConn Unit) (stubLimiter Unit 2) none 5 (zeros 5) 0
      (by decide)
      (fun s q => by simp [stubConn])).2 (by decide)⟩

section
variable {σ ε : Type}

theorem slice_zero (b : List Byte) : slice b 0 0 = [] := by
  simp [slice]

/-- With chunk 0 on a non-empty buffer the loop stays at offset 0: while the transfers on
the empty slice and the charges return no error, every unit of fuel is spent on one
transfer and one charge, and the loop is still running. -/
theorem chunkLoop_zero (d : Dir) (xf : σ → List Byte → Int → Int → Xfer σ ε)
    (wait : σ → Int → Option ε × σ) (nb : Int) (hnb : 0 < nb)
    (hx : ∀ s b, (xf s b 0 0).err = none) (hw : ∀ s m, (wait s m).1 = none) (fuel : Nat) :
    ∀ (n : Int) (b : List Byte) (s : σ),
      (chunkLoop d xf wait nb 0 fuel 0 n b s).outcome = .running ∧
      (xferCounts (chunkLoop d xf wait nb 0 fuel 0 n b s).trace).length = fuel ∧
      (charges (chunkLoop d xf wait nb 0 fuel 0 n b s).trace).length = fuel ∧
      charges (chunkLoop d xf wait nb 0 fuel 0 n b s).trace
        = xferCounts (chunkLoop d xf wait nb 0 fuel 0 n b s).trace := by
  induction fuel with
  | zero => intro n b s; simp [chunkLoop, hnb, xferCounts, charges]
  | succ k ih =>
    intro n b s
    have hgt : ¬ ((0 : Int) > nb) := by omega
    obtain ⟨a1, a2, a3, a4⟩ := ih (n + (xf s b 0 0).n) (xf s b 0 0).buf
      (wait (xf s b 0 0).state (xf s b 0 0).n).2
    simp [chunkLoop, hnb, hgt, hx, hw, a1, a2, a3, a4, xferCounts, charges]

/-- A throttled call with quota 0 on a non-empty buffer. -/
theorem throttled_zero (d : Dir) (xf : σ → List Byte → Int → Int → Xfer σ ε)
    (wait : σ → Int → Option ε × σ) (hx : ∀ s b, (xf s b 0 0).err = none)
    (hw : ∀ s m, (wait s m).1 = none) (fuel : Nat) (b : List Byte) (s : σ) (hb : b ≠ []) :
    ((chunkLoop d xf wait b.length (if (b.length : Int) < 0 then b.length else 0)
        fuel 0 0 b s).after [.limit d 0]).outcome = .running ∧
      (xferCounts ((chunkLoop d xf wait b.length (if (b.length : Int) < 0 then b.length else 0)
        fuel 0 0 b s).after [.limit d 0]).trace).length = fuel ∧
      (charges ((chunkLoop d xf wait b.length (if (b.length : Int) < 0 then b.length else 0)
        fuel 0 0 b s).after [.limit d 0]).trace).length = fuel ∧
      charges ((chunkLoop d xf wait b.length (if (b.length : Int) < 0 then b.length else 0)
        fuel 0 0 b s).after [.limit d 0]).trace
        = xferCounts ((chunkLoop d xf wait b.length
          (if (b.length : Int) < 0 then b.length else 0) fuel 0 0 b s).after
            [.limit d 0]).trace ∧
      ∀ pre post dd lo hi p k e,
        ((chunkLoop d xf wait b.length (if (b.length : Int) < 0 then b.length else 0)
          fuel 0 0 b s).after [.limit d 0]).trace = pre ++ .xfer dd lo hi p k e :: post →
        lo = 0 ∧ hi = 0 ∧ p = [] := by
  have hlen : 0 < b.length := List.length_pos.mpr hb
  have hpos : (0 : Int) < b.length := by exact_mod_cast hlen
  refine ⟨?_, ?_, ?_, ?_, ?_⟩
  · rw [if_neg (by omega)]
    exact (chunkLoop_zero d xf wait b.length hpos hx hw fuel 0 b s).1
  · rw [if_neg (by omega)]
    simpa [xferCounts] using (chunkLoop_zero d xf wait b.length hpos hx hw fuel 0 b s).2.1
  · rw [if_neg (by omega)]
    simpa [charges] using (chunkLoop_zero d xf wait b.length hpos hx hw fuel 0 b s).2.2.1
  · rw [if_neg (by omega)]
    simpa [charges, xferCounts] using
      (chunkLoop_zero d xf wait b.length hpos hx hw fuel 0 b s).2.2.2
  · intro pre post dd lo hi p k e h
    obtain ⟨rfl, rfl⟩ := zero_quota_slices d xf wait b.length hpos.le fuel b s pre post dd
      lo hi p k e h
    obtain ⟨-, -, -, -, hp⟩ := (throttled_sizes d xf wait b.length 0 fuel b s).1
      pre post dd 0 0 p k e h
    refine ⟨rfl, rfl, ?_⟩
    apply List.length_eq_zero.mp
    omega

/-- Claim C18. Let the limiter report a quota that converts to the integer 0 and the buffer
be non-empty. If the calls of the wrapped connection on the empty slice return no error
and the charges succeed, throttled `Conn.Read` and `Conn.Write` never return: whatever the
fuel, the run is still in its loop after spending every unit of it on one transfer and one
charge of the count that transfer returned, and every transfer is on the empty slice
`[0:0]`, so the offset is still 0. -/
theorem C18_zero_quota_never_returns (c : NetConn σ ε) (rl wl : Limiter σ ε)
    (orl owl : Option (Limiter σ ε)) (fuel : Nat) (b : List Byte) (s : σ) (hb : b ≠ [])
    (hrq : (rl.Limit s).1 = 0) (hwq : (wl.Limit s).1 = 0)
    (hread : ∀ s, (c.Read s []).err = none) (hwrite : ∀ s, (c.Write s []).err = none)
    (hrl : ∀ s m, (rl.WaitN s m).1 = none) (hwl : ∀ s m, (wl.WaitN s m).1 = none) :
    ((Conn.Read ⟨some c, some rl, owl⟩ fuel b s).outcome = .running ∧
      (xferCounts (Conn.Read ⟨some c, some rl, owl⟩ fuel b s).trace).length = fuel ∧
      (charges (Conn.Read ⟨some c, some rl, owl⟩ fuel b s).trace).length = fuel ∧
      charges (Conn.Read ⟨some c, some rl, owl⟩ fuel b s).trace
        = xferCounts (Conn.Read ⟨some c, some rl, owl⟩ fuel b s).trace ∧
      ∀ pre post dd lo hi p k e,
        (Conn.Read ⟨some c, some rl, owl⟩ fuel b s).trace
          = pre ++ .xfer dd lo hi p k e :: post →
        lo = 0 ∧ hi = 0 ∧ p = []) ∧
    ((Conn.Write ⟨some c, orl, some wl⟩ fuel b s).outcome = .running ∧
      (xferCounts (Conn.Write ⟨some c, orl, some wl⟩ fuel b s).trace).length = fuel ∧
      (charges (Conn.Write ⟨some c, orl, some wl⟩ fuel b s).trace).length = fuel ∧
      charges (Conn.Write ⟨some c, orl, some wl⟩ fuel b s).trace
        = xferCounts (Conn.Write ⟨some c, orl, some wl⟩ fuel b s).trace ∧
      ∀ pre post dd lo hi p k e,
        (Conn.Write ⟨some c, orl, some wl⟩ fuel b s).trace
          = pre ++ .xfer dd lo hi p k e :: post →
        lo = 0 ∧ hi = 0 ∧ p = []) := by
  rw [Conn.Read_eq, Conn.Write_eq, hrq, hwq]
  exact ⟨throttled_zero .read (readXfer c) rl.WaitN
      (fun s b => by simp only [readXfer, slice_zero]; exact hread s) hrl fuel b _ hb,
    throttled_zero .write (writeXfer c) wl.WaitN
      (fun s b => by simp only [writeXfer, slice_zero]; exact hwrite s) hwl fuel b _ hb⟩

end

/-- Witness for C18: a one-byte buffer and quota 0 over the stubs of conn_test.go; after 7
units of fuel the read is still running, having made 7 transfers and 7 charges. -/
theorem C18_zero_quota_never_returns_witness :
    (Conn.Read ⟨some (stubConn Unit), some (stubLimiter Unit 0), none⟩ 7
        (zeros 1) 0).outcome = .running ∧
    (xferCounts (Conn.Read ⟨some (stubConn Unit), some (stubLimiter Unit 0), none⟩ 7
        (zeros 1) 0).trace).length = 7 ∧
    (Conn.Write ⟨some (stubConn Unit), none, some (stubLimiter Unit 0)⟩ 7
        (zeros 1) 0).outcome = .running :=
  have h := C18_zero_quota_never_returns (stubConn Unit) (stubLimiter Unit 0)
    (stubLimiter Unit 0) none none 7 (zeros 1) 0 (by decide) rfl rfl
    (fun _ => rfl) (fun _ => rfl) (fun _ _ => rfl) (fun _ _ => rfl)
  ⟨h.1.1, h.1.2.1, h.2.1⟩

/-- Witness for C14: a read over the stubs of conn_test.go is the same run with a failing
write limiter as with none, and its quota query is a call on the read limiter. -/
theorem C14_directions_independent_witness :
    Conn.Read ⟨some (stubConn Unit), some (stubLimiter Unit 2), some (failLimiter 1 ())⟩ 3
        (zeros 3) 0
      = Conn.Read ⟨some (stubConn Unit), some (stubLimiter Unit 2), none⟩ 3 (zeros 3) 0 ∧
    (Event.limit Dir.read 2 : Event Unit).dir = some Dir.read :=
  ⟨(C14_directions_independent (some (stubConn Unit)) (stubConn Unit).Read
      (stubConn Unit).Read (stubConn Unit).Read (stubConn Unit).Write (stubConn Unit).Write
      (stubConn Unit).Write (some (stubLimiter Unit 2)) (some (failLimiter 1 ())) none none
      3 (zeros 3) 0).1.1,
   (C14_directions_independent (some (stubConn Unit)) (stubConn Unit).Read
      (stubConn Unit).Read (stubConn Unit).Read (stubConn Unit).Write (stubConn Unit).Write
      (stubConn Unit).Write (some (stubLimiter Unit 2)) (some (failLimiter 1 ())) none none
      3 (zeros 3) 0).1.2.2 (.limit .read 2) (by decide)⟩

section
variable {σ ε : Type}

/-- The running total of the loop over a transfer whose counts lie between 0 and the length
of the slice: it never decreases and never exceeds the bytes left in the buffer. -/
theorem chunkLoop_total_bounded (d : Dir) (xf : σ → List Byte → Int → Int → Xfer σ ε)
    (wait : σ → Int → Option ε × σ) (nb limit : Int)
    (hx : ∀ s b lo hi, 0 ≤ lo → lo ≤ hi → hi ≤ (b.length : Int) →
      0 ≤ (xf s b lo hi).n ∧ (xf s b lo hi).n ≤ hi - lo ∧
      (xf s b lo hi).buf.length = b.length)
    (fuel : Nat) (i n : Int) (b : List Byte) (s : σ) (hi : 0 ≤ i)
    (hb : (b.length : Int) = nb) (m : Int) (err : Option ε)
    (hr : (chunkLoop d xf wait nb limit fuel i n b s).outcome = .returned m err) :
    n ≤ m ∧ m ≤ n + max 0 (nb - i) := by
  revert hi hb m err
  refine chunkLoop_cases d xf wait nb limit
    (fun _ i n b _ r => 0 ≤ i → (b.length : Int) = nb → ∀ m err,
      r.outcome = .returned m err → n ≤ m ∧ m ≤ n + max 0 (nb - i))
    ?_ ?_ ?_ ?_ ?_ ?_ fuel i n b s
  · intro _ i n _ _ h _ _ m err hr
    simp only [Outcome.returned.injEq] at hr
    obtain ⟨rfl, rfl⟩ := hr
    rw [max_eq_left (by omega)]
    simp
  · intro _ _ _ _ _ _ _ m err hr; simp at hr
  · intro _ _ _ _ _ _ _ _ _ m err hr; simp at hr
  · intro _ i n b s e h h0 h1 _ _ hb m err hr
    simp only [Outcome.returned.injEq] at hr
    obtain ⟨rfl, rfl⟩ := hr
    obtain ⟨c1, c2, -⟩ := hx s b i (chunkEnd nb limit i) h0 h1 (hb ▸ chunkEnd_le nb limit i h)
    have := chunkEnd_le nb limit i h
    rw [max_eq_right (by omega)]
    exact ⟨by omega, by omega⟩
  · intro _ i n b s e h h0 h1 herr _ _ hb m err hr
    simp only [Outcome.returned.injEq] at hr
    obtain ⟨rfl, rfl⟩ := hr
    obtain ⟨c1, c2, -⟩ := hx s b i (chunkEnd nb limit i) h0 h1 (hb ▸ chunkEnd_le nb limit i h)
    have := chunkEnd_le nb limit i h
    rw [max_eq_right (by omega)]
    exact ⟨by omega, by omega⟩
  · intro _ i n b s h h0 h1 herr _ ih _ hb m err hr
    obtain ⟨c1, c2, c4⟩ := hx s b i (chunkEnd nb limit i) h0 h1
      (hb ▸ chunkEnd_le nb limit i h)
    have hlim : 0 ≤ limit := by
      unfold chunkEnd at h1; split_ifs at h1 <;> omega
    simp only [Run.after_outcome] at hr
    obtain ⟨a1, a2⟩ := ih (by omega) (by rw [c4]; exact hb) m err hr
    rw [max_eq_right (by omega)]
    have h5 : (i + limit > nb ∧ chunkEnd nb limit i = nb) ∨
        (¬ i + limit > nb ∧ chunkEnd nb limit i = i + limit) := by
      unfold chunkEnd; split_ifs with hgt <;> simp [hgt]
    rcases h5 with ⟨hgt, he⟩ | ⟨hgt, he⟩
    · rw [max_eq_left (by omega)] at a2
      exact ⟨by omega, by omega⟩
    · rw [max_eq_right (by omega)] at a2
      exact ⟨by omega, by omega⟩

theorem readXfer_counts (c : NetConn σ ε)
    (hread : ∀ s p, 0 ≤ (c.Read s p).n ∧ (c.Read s p).n ≤ (p.length : Int)) :
    ∀ s b lo hi, 0 ≤ lo → lo ≤ hi → hi ≤ (b.length : Int) →
      0 ≤ (readXfer c s b lo hi).n ∧ (readXfer c s b lo hi).n ≤ hi - lo ∧
      (readXfer c s b lo hi).buf.length = b.length := by
  intro s b lo hi h0 h1 h2
  have hl := slice_length h0 h1 h2
  obtain ⟨w1, w2⟩ := hread s (slice b lo hi)
  rw [hl] at w2
  exact ⟨w1, w2, store_length h0 h1 h2 _⟩

theorem writeXfer_counts (c : NetConn σ ε)
    (hwrite : ∀ s p, 0 ≤ (c.Write s p).n ∧ (c.Write s p).n ≤ (p.length : Int)) :
    ∀ s b lo hi, 0 ≤ lo → lo ≤ hi → hi ≤ (b.length : Int) →
      0 ≤ (writeXfer c s b lo hi).n ∧ (writeXfer c s b lo hi).n ≤ hi - lo ∧
      (writeXfer c s b lo hi).buf.length = b.length := by
  intro s b lo hi h0 h1 h2
  have hl := slice_length h0 h1 h2
  obtain ⟨w1, w2⟩ := hwrite s (slice b lo hi)
  rw [hl] at w2
  exact ⟨w1, w2, rfl⟩

/-- The total returned by a throttled call over a transfer whose counts lie between 0 and
the length of the slice lies between 0 and the length of the buffer. -/
theorem throttled_total_bounded (d : Dir) (xf : σ → List Byte → Int → Int → Xfer σ ε)
    (wait : σ → Int → Option ε × σ) (q : Int)
    (hx : ∀ s b lo hi, 0 ≤ lo → lo ≤ hi → hi ≤ (b.length : Int) →
      0 ≤ (xf s b lo hi).n ∧ (xf s b lo hi).n ≤ hi - lo ∧
      (xf s b lo hi).buf.length = b.length)
    (fuel : Nat) (b : List Byte) (s : σ) (m : Int) (err : Option ε)
    (hr : ((chunkLoop d xf wait b.length (if (b.length : Int) < q then b.length else q)
      fuel 0 0 b s).after [.limit d q]).outcome = .returned m err) :
    0 ≤ m ∧ m ≤ (b.length : Int) := by
  simp only [Run.after_outcome] at hr
  obtain ⟨a1, a2⟩ := chunkLoop_total_bounded d xf wait b.length _ hx fuel 0 0 b s le_rfl rfl
    m err hr
  rw [max_eq_right (by omega)] at a2
  exact ⟨a1, by omega⟩

/-- Claim C6. Let every call on the wrapped connection report a count between 0 and the
length of the slice it was given (the contract of `net.Conn`; the total is then at most
`len(b)` and the Go `int` holding it cannot wrap). In every throttled `Conn.Read` and
`Conn.Write` that returns, the returned count is the sum of the counts returned by all the
calls made on the wrapped connection, the count returned together with an error included,
and lies between 0 and `len(b)`; a call on the wrapped connection that returns an error is
the last call of the run; and with a positive quota and enough fuel the call does
return. -/
theorem C6_count_is_sum_of_transfers (c : NetConn σ ε) (rl wl : Limiter σ ε)
    (orl owl : Option (Limiter σ ε)) (fuel : Nat) (b : List Byte) (s : σ)
    (hread : ∀ s p, 0 ≤ (c.Read s p).n ∧ (c.Read s p).n ≤ (p.length : Int))
    (hwrite : ∀ s p, 0 ≤ (c.Write s p).n ∧ (c.Write s p).n ≤ (p.length : Int)) :
    ((∀ n err, (Conn.Read ⟨some c, some rl, owl⟩ fuel b s).outcome = .returned n err →
        n = (xferCounts (Conn.Read ⟨some c, some rl, owl⟩ fuel b s).trace).sum ∧
          0 ≤ n ∧ n ≤ (b.length : Int)) ∧
      (∀ pre post dd lo hi p k e,
        (Conn.Read ⟨some c, some rl, owl⟩ fuel b s).trace
          = pre ++ .xfer dd lo hi p k (some e) :: post → post = []) ∧
      (0 < (rl.Limit s).1 → b.length ≤ fuel →
        ∃ n err, (Conn.Read ⟨some c, some rl, owl⟩ fuel b s).outcome = .returned n err)) ∧
    ((∀ n err, (Conn.Write ⟨some c, orl, some wl⟩ fuel b s).outcome = .returned n err →
        n = (xferCounts (Conn.Write ⟨some c, orl, some wl⟩ fuel b s).trace).sum ∧
          0 ≤ n ∧ n ≤ (b.length : Int)) ∧
      (∀ pre post dd lo hi p k e,
        (Conn.Write ⟨some c, orl, some wl⟩ fuel b s).trace
          = pre ++ .xfer dd lo hi p k (some e) :: post → post = []) ∧
      (0 < (wl.Limit s).1 → b.length ≤ fuel →
        ∃ n err, (Conn.Write ⟨some c, orl, some wl⟩ fuel b s).outcome = .returned n err)) := by
  rw [Conn.Read_eq, Conn.Write_eq]
  refine ⟨⟨?_, ?_, ?_⟩, ?_, ?_, ?_⟩
  · intro n err h
    refine ⟨by simpa [xferCounts] using chunkLoop_sum _ _ _ _ _ _ _ _ _ _ _ _ h, ?_⟩
    exact throttled_total_bounded .read (readXfer c) rl.WaitN _ (readXfer_counts c hread)
      fuel b _ n err h
  · intro pre post dd lo hi p k e h
    exact ((throttled_events _ _ _ _ _ _ _ _ _ _ _ _ h).2.2.1 dd lo hi p k e rfl).1
  · intro hq hf
    exact throttled_returns .read (readXfer c) rl.WaitN _ hq fuel b _ hf
  · intro n err h
    refine ⟨by simpa [xferCounts] using chunkLoop_sum _ _ _ _ _ _ _ _ _ _ _ _ h, ?_⟩
    exact throttled_total_bounded .write (writeXfer c) wl.WaitN _ (writeXfer_counts c hwrite)
      fuel b _ n err h
  · intro pre post dd lo hi p k e h
    exact ((throttled_events _ _ _ _ _ _ _ _ _ _ _ _ h).2.2.1 dd lo hi p k e rfl).1
  · intro hq hf
    exact throttled_returns .write (writeXfer c) wl.WaitN _ hq fuel b _ hf

/-- Claim C5 (as amended). Let every call on the wrapped connection report a count between
0 and the length of the slice it was given (the contract of `net.Conn`; the total is then
at most `len(b)` and the Go `int` holding it cannot wrap). In every throttled `Conn.Read`
and `Conn.Write`, if a call on the wrapped connection returns count `k` together with an
error `e`, the call returns the sum of the counts of the earlier chunks plus `k`, a number
between 0 and `len(b)`, with the error `e`, and nothing follows that call in the run: no
charge is made for the chunk and no further chunk is attempted. -/
theorem C5_transfer_error (c : NetConn σ ε) (rl wl : Limiter σ ε)
    (orl owl : Option (Limiter σ ε)) (fuel : Nat) (b : List Byte) (s : σ)
    (pre post : List (Event ε)) (dd : Dir) (lo hi : Int) (p : List Byte) (k : Int) (e : ε)
    (hread : ∀ s p, 0 ≤ (c.Read s p).n ∧ (c.Read s p).n ≤ (p.length : Int))
    (hwrite : ∀ s p, 0 ≤ (c.Write s p).n ∧ (c.Write s p).n ≤ (p.length : Int)) :
    ((Conn.Read ⟨some c, some rl, owl⟩ fuel b s).trace
        = pre ++ .xfer dd lo hi p k (some e) :: post →
      (Conn.Read ⟨some c, some rl, owl⟩ fuel b s).outcome
        = .returned ((xferCounts pre).sum + k) (some e) ∧ post = [] ∧
      0 ≤ (xferCounts pre).sum + k ∧ (xferCounts pre).sum + k ≤ (b.length : Int)) ∧
    ((Conn.Write ⟨some c, orl, some wl⟩ fuel b s).trace
        = pre ++ .xfer dd lo hi p k (some e) :: post →
      (Conn.Write ⟨some c, orl, some wl⟩ fuel b s).outcome
        = .returned ((xferCounts pre).sum + k) (some e) ∧ post = [] ∧
      0 ≤ (xferCounts pre).sum + k ∧ (xferCounts pre).sum + k ≤ (b.length : Int)) := by
  rw [Conn.Read_eq, Conn.Write_eq]
  constructor <;> intro h
  · obtain ⟨hp, ho⟩ := (throttled_events _ _ _ _ _ _ _ _ _ _ _ _ h).2.2.1 dd lo hi p k e rfl
    exact ⟨ho, hp, throttled_total_bounded .read (readXfer c) rl.WaitN _
      (readXfer_counts c hread) fuel b _ _ _ ho⟩
  · obtain ⟨hp, ho⟩ := (throttled_events _ _ _ _ _ _ _ _ _ _ _ _ h).2.2.1 dd lo hi p k e rfl
    exact ⟨ho, hp, throttled_total_bounded .write (writeXfer c) wl.WaitN _
      (writeXfer_counts c hwrite) fuel b _ _ _ ho⟩

/-- Claim C7. Let every call on the wrapped connection report a count between 0 and the
length of the slice it was given (the contract of `net.Conn`; the total is then at most
`len(b)` and the Go `int` holding it cannot wrap). In every throttled `Conn.Read` and
`Conn.Write`, if a `WaitN` call, made with amount `m`, returns an error `e`, then the event
just before it is the transfer of that chunk with count `m`, the call returns the sum of
the counts of all chunks up to and including that one, a number between 0 and `len(b)`,
with the error `e`, and nothing follows the failed charge in the run. -/
theorem C7_charge_error (c : NetConn σ ε) (rl wl : Limiter σ ε)
    (orl owl : Option (Limiter σ ε)) (fuel : Nat) (b : List Byte) (s : σ)
    (pre post : List (Event ε)) (dd : Dir) (m : Int) (e : ε)
    (hread : ∀ s p, 0 ≤ (c.Read s p).n ∧ (c.Read s p).n ≤ (p.length : Int))
    (hwrite : ∀ s p, 0 ≤ (c.Write s p).n ∧ (c.Write s p).n ≤ (p.length : Int)) :
    ((Conn.Read ⟨some c, some rl, owl⟩ fuel b s).trace
        = pre ++ .waitN dd m (some e) :: post →
      (Conn.Read ⟨some c, some rl, owl⟩ fuel b s).outcome
        = .returned (xferCounts pre).sum (some e) ∧ post = [] ∧
      (∃ pre1 lo hi p, pre = pre1 ++ [.xfer .read lo hi p m none]) ∧
      0 ≤ (xferCounts pre).sum ∧ (xferCounts pre).sum ≤ (b.length : Int)) ∧
    ((Conn.Write ⟨some c, orl, some wl⟩ fuel b s).trace
        = pre ++ .waitN dd m (some e) :: post →
      (Conn.Write ⟨some c, orl, some wl⟩ fuel b s).outcome
        = .returned (xferCounts pre).sum (some e) ∧ post = [] ∧
      (∃ pre1 lo hi p, pre = pre1 ++ [.xfer .write lo hi p m none]) ∧
      0 ≤ (xferCounts pre).sum ∧ (xferCounts pre).sum ≤ (b.length : Int)) := by
  rw [Conn.Read_eq, Conn.Write_eq]
  constructor <;> intro h
  · have a := throttled_events _ _ _ _ _ _ _ _ _ _ _ _ h
    exact ⟨(a.2.1 dd m e rfl).2, (a.2.1 dd m e rfl).1, (a.1 dd m _ rfl).2,
      throttled_total_bounded .read (readXfer c) rl.WaitN _ (readXfer_counts c hread)
        fuel b _ _ _ (a.2.1 dd m e rfl).2⟩
  · have a := throttled_events _ _ _ _ _ _ _ _ _ _ _ _ h
    exact ⟨(a.2.1 dd m e rfl).2, (a.2.1 dd m e rfl).1, (a.1 dd m _ rfl).2,
      throttled_total_bounded .write (writeXfer c) wl.WaitN _ (writeXfer_counts c hwrite)
        fuel b _ _ _ (a.2.1 dd m e rfl).2⟩

end

/-- Witness for C6: a connection that can deliver 3 bytes in all is read into a 5-byte
buffer with quota 2: the second call returns 1 byte together with an error, and the read
returns 3, the sum of the counts 2 and 1. -/
theorem C6_count_is_sum_of_transfers_witness :
    ((3 : Int) = (xferCounts (Conn.Read ⟨some (cappedConn 3 ()), some (stubLimiter Unit 2),
        none⟩ 5 (zeros 5) 0).trace).sum ∧ (0 : Int) ≤ 3 ∧ (3 : Int) ≤ ((zeros 5).length : Int)) ∧
    (∃ n err, (Conn.Write ⟨some (cappedConn 3 ()), none, some (stubLimiter Unit 2)⟩ 5
      (zeros 5) 0).outcome = .returned n err) :=
  ⟨(C6_count_is_sum_of_transfers (cappedConn 3 ()) (stubLimiter Unit 2)
      (stubLimiter Unit 2) none none 5 (zeros 5) 0
      (fun s q => by simp only [cappedConn]; omega)
      (fun s q => by simp only [cappedConn]; omega)).1.1 3 (some ()) (by decide),
   (C6_count_is_sum_of_transfers (cappedConn 3 ()) (stubLimiter Unit 2)
      (stubLimiter Unit 2) none none 5 (zeros 5) 0
      (fun s q => by simp only [cappedConn]; omega)
      (fun s q => by simp only [cappedConn]; omega)).2.2.2 (by decide) (by decide)⟩

set_option maxRecDepth 100000 in
/-- Witness for C5 (as amended): a connection that can deliver 1 byte in all returns
`(1, err)` on the first chunk and the read returns `(1, err)`; and the failing case of
conn_test.go (555 bytes, quota 100, the first call returns `(0, connErr)`), which returns
`(0, connErr)`. -/
theorem C5_transfer_error_witness :
    ((Conn.Read ⟨some (cappedConn 1 ()), some (stubLimiter Unit 2), none⟩ 4
      (zeros 4) 0).outcome
        = .returned ((xferCounts [(Event.limit Dir.read 2 : Event Unit)]).sum + 1) (some ())
      ∧ ([] : List (Event Unit)) = [] ∧
      0 ≤ (xferCounts [(Event.limit Dir.read 2 : Event Unit)]).sum + 1 ∧
      (xferCounts [(Event.limit Dir.read 2 : Event Unit)]).sum + 1
        ≤ ((zeros 4).length : Int)) ∧
    ((Conn.Write ⟨some (failConn ()), none, some (stubLimiter Unit 100)⟩ 6
      (zeros 555) 0).outcome
        = .returned ((xferCounts [(Event.limit Dir.write 100 : Event Unit)]).sum + 0) (some ())
      ∧ ([] : List (Event Unit)) = [] ∧
      0 ≤ (xferCounts [(Event.limit Dir.write 100 : Event Unit)]).sum + 0 ∧
      (xferCounts [(Event.limit Dir.write 100 : Event Unit)]).sum + 0
        ≤ ((zeros 555).length : Int)) :=
  ⟨(C5_transfer_error (cappedConn 1 ()) (stubLimiter Unit 2) (stubLimiter Unit 2) none none
      4 (zeros 4) 0 [.limit .read 2] [] .read 0 2 [0, 0] 1 ()
      (fun s q => by simp only [cappedConn]; omega)
      (fun s q => by simp only [cappedConn]; omega)).1 (by decide),
   (C5_transfer_error (failConn ()) (stubLimiter Unit 100) (stubLimiter Unit 100) none none
      6 (zeros 555) 0 [.limit .write 100] [] .write 0 100 (zeros 100) 0 ()
      (fun s q => by simp [failConn])
      (fun s q => by simp [failConn])).2 (by decide)⟩

set_option maxRecDepth 100000 in
/-- Witness for C7: the test case of conn_test.go with a 555-byte buffer, quota 100 and a
limiter whose charge always fails: one call on the wrapped connection, `n = 100`. -/
theorem C7_charge_error_witness :
    (Conn.Read ⟨some (stubConn Unit), some (failLimiter 100 ()), none⟩ 6
      (zeros 555) 0).outcome
      = .returned (xferCounts [Event.limit Dir.read 100,
          Event.xfer Dir.read 0 100 (zeros 100) 100 (none : Option Unit)]).sum (some ()) ∧
    ([] : List (Event Unit)) = [] ∧
    (∃ pre1 lo hi p, [Event.limit Dir.read 100,
        Event.xfer Dir.read 0 100 (zeros 100) 100 (none : Option Unit)]
      = pre1 ++ [Event.xfer Dir.read lo hi p 100 none]) ∧
    0 ≤ (xferCounts [Event.limit Dir.read 100,
        Event.xfer Dir.read 0 100 (zeros 100) 100 (none : Option Unit)]).sum ∧
    (xferCounts [Event.limit Dir.read 100,
        Event.xfer Dir.read 0 100 (zeros 100) 100 (none : Option Unit)]).sum
      ≤ ((zeros 555).length : Int) :=
  (C7_charge_error (stubConn Unit) (failLimiter 100 ()) (failLimiter 100 ()) none none 6
    (zeros 555) 0 [.limit .read 100, .xfer .read 0 100 (zeros 100) 100 none] []
    .read 100 ()
    (fun s q => by simp [stubConn])
    (fun s q => by simp [stubConn])).1 (by decide)

end Netlimit
